import Mathlib

/-!
Verification of the tutone schema core: the type-expansion engine
(`ExpandType` / `ExpandTypes` in internal/schema/schema_util.go) and the
selection-set synthesizer (`GetQueryStringFields` in the schema package).

Go strings are embedded as `List Char` (`GoStr`); `strings.Split(s, "\n")`
and `strings.Join(lines, "\n")` are embedded as `ssplit` / `sjoin` below.
Fallible Go code (`(*Type, error)` returns) becomes `Option` / `Except`.
A Go runtime panic or a non-terminating recursion is modelled as `none`
(the synthesizer carries explicit fuel because its possible-type recursion
has no structural bound in the source).
-/

namespace Tutone

/-- A Go string, embedded as its list of characters. -/
abbrev GoStr := List Char

/-- Embedding of Go `strings.Join(lines, "\n")`. -/
def sjoin : List GoStr → GoStr
  | [] => []
  | [l] => l
  | l :: l' :: ls => l ++ '\n' :: sjoin (l' :: ls)

/-- Embedding of Go `strings.Split(s, "\n")`: splits at every newline;
the empty string yields the single piece `[""]`, as in Go. -/
def ssplit : GoStr → List GoStr
  | [] => [[]]
  | c :: rest =>
    match ssplit rest with
    | [] => [[]]
    | p :: ps => if c = '\n' then [] :: p :: ps else (c :: p) :: ps

/-- The GraphQL introspection type kinds (`Kind` constants of the schema
package). -/
inductive Kind where
  | SCALAR
  | OBJECT
  | INTERFACE
  | UNION
  | ENUM
  | INPUT_OBJECT
  | LIST
  | NON_NULL
deriving DecidableEq, Repr

/-- A `TypeRef`: a kind together with either a terminal name (`leaf`, Go
`OfType == nil`) or a nested reference (`wrap`, Go `OfType != nil`).  In
introspection data only the leaf carries a name, so the wrapper's empty
`Name` field is dropped here. -/
inductive TypeRef where
  | leaf (kind : Kind) (name : GoStr)
  | wrap (kind : Kind) (ofType : TypeRef)
deriving DecidableEq, Repr

/-- Modelled from the spec: `GetKinds` returns the chain of kinds of a
TypeRef, outermost first, terminating at the named leaf; the synthesizer
uses only its last entry (the unwrapped leaf kind). -/
def TypeRef.GetKinds : TypeRef → List Kind
  | .leaf k _ => [k]
  | .wrap k r => k :: r.GetKinds

/-- The unwrapped leaf kind of a TypeRef, i.e. `GetKinds` last entry
(`kinds[len(kinds)-1]` in the source); `GetKinds` is never empty. -/
def TypeRef.leafKind : TypeRef → Kind
  | .leaf k _ => k
  | .wrap _ r => r.leafKind

/-- Modelled from the spec: `GetTypeName` unwraps to the leaf TypeRef and
returns its `Name`, which identifies the target Type (wrappers carry no
name in introspection data). -/
def TypeRef.GetTypeName : TypeRef → GoStr
  | .leaf _ n => n
  | .wrap _ r => r.GetTypeName

/-- The `Name` field of a TypeRef itself, without unwrapping: the
possible-types loop of the synthesizer reads `possibleType.Name` directly.
Wrappers carry an empty name. -/
def TypeRef.refName : TypeRef → GoStr
  | .leaf _ n => n
  | .wrap _ _ => []

/-- An `Argument` of a Field: name, type reference and optional default. -/
structure Argument where
  name : GoStr
  type : TypeRef
  defaultValue : Option GoStr
deriving DecidableEq, Repr

/-- Modelled from the spec: an argument is required iff its TypeRef is
`NON_NULL` at the top level and it has no default value. -/
def Argument.IsRequired (a : Argument) : Bool :=
  (match a.type with
    | .leaf k _ => k
    | .wrap k _ => k) = Kind.NON_NULL
  && a.defaultValue.isNone

/-- A `Field` of a Type: name, type reference and arguments. -/
structure Field where
  name : GoStr
  type : TypeRef
  args : List Argument
deriving DecidableEq, Repr

/-- Modelled from the spec: `HasRequiredArg` is true iff any argument of
the field is required. -/
def Field.HasRequiredArg (f : Field) : Bool :=
  f.args.any Argument.IsRequired

/-- A `Type` record of the schema.  Components not read by the modelled
operations (`Description`, `EnumValues`, `Interfaces`, `SkipFields`) are
omitted. -/
structure GType where
  name : GoStr
  kind : Kind
  fields : List Field
  inputFields : List Field
  possibleTypes : List TypeRef
deriving DecidableEq, Repr

/-- The `Schema` registry: the ordered collection of Types. -/
structure Schema where
  types : List GType
deriving DecidableEq, Repr

/-- Modelled from the spec: `LookupTypeByName` is exact-match lookup of a
type by canonical name; an unknown name is a recoverable `NotFound`
(`none`), never a crash, and the hit is the shared registry record. -/
def Schema.LookupTypeByName (s : Schema) (name : GoStr) : Option GType :=
  s.types.find? (fun t => t.name = name)

/-- Modelled from the spec: `stringInStrings` tests membership of a string
in a list of strings. -/
def stringInStrings (x : GoStr) (l : List GoStr) : Bool :=
  l.any (fun y => y = x)

/-- Modelled from the spec: `formatGoName` formats a schema name for Go
title casing (the language-specific display name used by `Type.GetName`);
embedded as capitalisation of the first character. -/
def formatGoName : GoStr → GoStr
  | [] => []
  | c :: r => c.toUpper :: r

/-- `Type.GetName` of the source: the Go-formatted display name. -/
def GType.GetName (t : GType) : GoStr :=
  formatGoName t.name

/-- A root type descriptor (`TypeInfo`): modelled from the spec as a name
plus ignored per-type metadata. -/
structure TypeInfo where
  name : GoStr
deriving DecidableEq, Repr

/-- `typeNameInTypes` of the source: whether a name is already present in
a set of TypeInfo. -/
def typeNameInTypes (s : GoStr) (types : List TypeInfo) : Bool :=
  types.any (fun t => t.name = s)

/-- `hasType` of the source: whether a Type with the same canonical `Name`
is already present in a slice of Types. -/
def hasType (t : GType) (ts : List GType) : Bool :=
  ts.any (fun tt => t.name = tt.name)

/-- `ExpandType` of the source: collects, for each InputField and then
each Field whose TypeRef has a non-nil `OfType`, the registry type named
by `i.Type.OfType.GetTypeName()`; lookup misses are logged and skipped.
Errors only on a nil schema or nil type argument (modelled as `none`
arguments). -/
def ExpandType (s? : Option Schema) (t? : Option GType) :
    Except String (List GType) :=
  match s? with
  | none => .error "unable to expand type from nil schema"
  | some s =>
    match t? with
    | none => .error "unable to expand nil type"
    | some t =>
      let fromInput := t.inputFields.foldl (fun acc i =>
        match i.type with
        | .wrap _ inner =>
          match s.LookupTypeByName inner.GetTypeName with
          | some result => acc ++ [result]
          | none => acc
        | .leaf _ _ => acc) []
      let fromFields := t.fields.foldl (fun acc i =>
        match i.type with
        | .wrap _ inner =>
          match s.LookupTypeByName inner.GetTypeName with
          | some result => acc ++ [result]
          | none => acc
        | .leaf _ _ => acc) fromInput
      .ok fromFields

/-- One step of the `ExpandTypes` outer scan: if the schema type's
Go-formatted name matches a requested root, append it (unchecked), then
append its `ExpandType` one-hop expansions that are not yet present by
name. -/
def expandTypesStep (s : Schema) (types : List TypeInfo)
    (acc : List GType) (schemaType : GType) : List GType :=
  if typeNameInTypes schemaType.GetName types then
    let acc := acc ++ [schemaType]
    match ExpandType (some s) (some schemaType) with
    | .error _ => acc
    | .ok fieldTypes =>
      fieldTypes.foldl (fun acc2 f =>
        if hasType f acc2 then acc2 else acc2 ++ [f]) acc
  else acc

/-- `ExpandTypes` of the source: scans the registry's types in order,
seeding with root matches and extending with deduplicated one-hop
expansions.  Errors only on a nil schema. -/
def ExpandTypes (s? : Option Schema) (types : List TypeInfo) :
    Except String (List GType) :=
  match s? with
  | none => .error "unable to expand types from nil schema"
  | some s => .ok (s.types.foldl (expandTypesStep s types) [])

/-- Stable insertion used by `sortFieldsByName`: insert `f` before the
first existing field whose name is not strictly smaller. -/
def orderedInsertF (lt : GoStr → GoStr → Bool) (f : Field) :
    List Field → List Field
  | [] => [f]
  | g :: gs =>
    if lt g.name f.name then g :: orderedInsertF lt f gs else f :: g :: gs

/-- Lexicographic byte-wise strict comparison of Go strings
(`s < t` on `string`). -/
def strLt : GoStr → GoStr → Bool
  | [], [] => false
  | [], _ :: _ => true
  | _ :: _, [] => false
  | a :: as, b :: bs => if a < b then true else if b < a then false else strLt as bs

/-- Embedding of `sort.SliceStable(t.Fields, func(i, j) { return
t.Fields[i].Name < t.Fields[j].Name })`: a stable sort of the fields by
ascending name. -/
def sortFieldsByName (fs : List Field) : List Field :=
  match fs with
  | [] => []
  | f :: rest => orderedInsertF strLt f (sortFieldsByName rest)

/-- The line `"\t__typename"`. -/
def tabTypename : GoStr := '\t' :: ("__typename".toList)

/-- The suffix `" {"` opening a nested block. -/
def openSuffix : GoStr := [' ', '\x7b']

/-- The line `"}"` closing a nested block. -/
def closeLine : GoStr := ['\x7d']

/-- The prefix `"... on "` of an inline-fragment opener. -/
def fragPrefix : GoStr := ['.', '.', '.', ' ', 'o', 'n', ' ']

/-- The inline-fragment opening line `"... on <name> {"`. -/
def fragOpenLine (n : GoStr) : GoStr := fragPrefix ++ n ++ openSuffix

/-- The field-processing loop of `GetQueryStringFields` (lines 116-186 of
the source): walks the sorted fields, skipping required-argument fields in
non-mutation context and configured exclusions, emitting nested blocks for
object/interface leaf kinds within the depth budget and bare leaf lines
otherwise.  `recur` is the recursive synthesis call at the already
incremented depth; its `none` (a panic or unbounded recursion below)
aborts the whole call.  Returns the emitted lines and the collected
`parentFieldNames`. -/
def fieldsLoop (recur : GType → Option GoStr) (s : Schema)
    (depth maxDepth : Int) (isMutation : Bool) (excludeFields : List GoStr) :
    List Field → List GoStr → List GoStr → Option (List GoStr × List GoStr)
  | [], lines, parents => some (lines, parents)
  | field :: rest, lines, parents =>
    if !isMutation && field.HasRequiredArg then
      fieldsLoop recur s depth maxDepth isMutation excludeFields rest lines parents
    else if stringInStrings field.name excludeFields then
      fieldsLoop recur s depth maxDepth isMutation excludeFields rest lines parents
    else if field.type.leafKind = Kind.OBJECT ∨ field.type.leafKind = Kind.INTERFACE then
      if depth > maxDepth then
        fieldsLoop recur s depth maxDepth isMutation excludeFields rest lines parents
      else
        match s.LookupTypeByName field.type.GetTypeName with
        | none =>
          fieldsLoop recur s depth maxDepth isMutation excludeFields rest lines parents
        | some subT =>
          match recur subT with
          | none => none
          | some subTContent =>
            if subTContent = [] ∨ (ssplit subTContent).length < 1 then
              fieldsLoop recur s depth maxDepth isMutation excludeFields rest lines parents
            else
              fieldsLoop recur s depth maxDepth isMutation excludeFields rest
                (lines ++ (field.name ++ openSuffix) ::
                  ((if field.type.leafKind = Kind.INTERFACE then [tabTypename] else []) ++
                    (ssplit subTContent).map (fun b => '\t' :: b) ++ [closeLine]))
                parents
    else
      fieldsLoop recur s depth maxDepth isMutation excludeFields rest
        (lines ++ [field.name]) (parents ++ [field.name])

/-- The possible-types loop of `GetQueryStringFields` (lines 188-213 of
the source): one inline fragment per possible type, opened with the
discriminator line, whose body is the possible type's own selection with
lines matching a parent field name dropped.  A name that does not resolve
is only logged in the source; the subsequent method call then dereferences
the nil result, a runtime panic, modelled as `none`. -/
def possLoop (recur : GType → Option GoStr) (s : Schema) :
    List TypeRef → List GoStr → List GoStr → Option (List GoStr)
  | [], lines, _ => some lines
  | pt :: rest, lines, parents =>
    match s.LookupTypeByName pt.refName with
    | none => none
    | some possibleT =>
      match recur possibleT with
      | none => none
      | some possibleTContent =>
        possLoop recur s rest
          (lines ++ fragOpenLine pt.refName :: tabTypename ::
            (((ssplit possibleTContent).filter
                  (fun b => !stringInStrings b parents)).map
                (fun b => '\t' :: b) ++ [closeLine]))
          parents

/-- The line list built by `GetQueryStringFields` before the final Join.
The extra `fuel` bounds the recursion, which the source does not: the
possible-types branch recurses at the same depth, so a cyclic
possible-type graph never terminates in Go; fuel exhaustion is `none`. -/
def gqsfLines : Nat → GType → Schema → Int → Int → Bool → List GoStr →
    Option (List GoStr)
  | 0, _, _, _, _, _, _ => none
  | Nat.succ fuel, t, s, depth0, maxDepth, isMutation, excludeFields =>
    match fieldsLoop
        (fun u => (gqsfLines fuel u s (depth0 + 1) maxDepth isMutation excludeFields).map sjoin)
        s (depth0 + 1) maxDepth isMutation excludeFields (sortFieldsByName t.fields) [] [] with
    | none => none
    | some (lines, parents) =>
      possLoop
        (fun u => (gqsfLines fuel u s (depth0 + 1) maxDepth isMutation excludeFields).map sjoin)
        s t.possibleTypes lines parents

/-- `GetQueryStringFields` of the source: the emitted lines joined with
newlines. -/
def GetQueryStringFields (fuel : Nat) (t : GType) (s : Schema)
    (depth maxDepth : Int) (isMutation : Bool) (excludeFields : List GoStr) :
    Option GoStr :=
  (gqsfLines fuel t s depth maxDepth isMutation excludeFields).map sjoin

end Tutone

namespace Tutone

/-! ## Analysis of the emitted selection text

The synthesizer emits four shapes of line: a bare leaf field name, a block
opener ending in `" \x7b"` (a field name or an inline-fragment header), the
interior lines of a block (each prefixed with one tab), and the block
closer, tabs followed by `"\x7d"`.  The definitions below classify lines
and measure, by a brace scan, how deeply object/interface *field* blocks
nest (inline fragments open braces but are not field descents). -/

/-- Strip the leading tabs of a line. -/
def dropTabs (l : GoStr) : GoStr := l.dropWhile (fun c => c = '\t')

/-- A line opening a block: it ends in `" \x7b"`. -/
def isOpenLine (l : GoStr) : Bool := l.reverse.take 2 = ['\x7b', ' ']

/-- A line closing a block: tabs followed by `"\x7d"`. -/
def isCloseLine (l : GoStr) : Bool := dropTabs l = closeLine

/-- A line opening an inline fragment: after tabs it starts with
`"... on "`. -/
def isFragLine (l : GoStr) : Bool := (dropTabs l).take 7 = fragPrefix

/-- A line opening an object/interface *field* block: an opener that is
not an inline-fragment header. -/
def isFieldOpen (l : GoStr) : Bool := isOpenLine l && !isFragLine l

/-- One step of the brace scan: push the opener's field flag, pop a
closer. -/
def scanLine (st : List Bool) (l : GoStr) : List Bool :=
  if isOpenLine l then isFieldOpen l :: st
  else if isCloseLine l then st.tail
  else st

/-- The brace scan over a sequence of lines. -/
def scanAll (st : List Bool) (lines : List GoStr) : List Bool :=
  lines.foldl scanLine st

/-- The number of field blocks open in a scan state. -/
def fieldCount (st : List Bool) : Nat := st.countP (fun b => b = true)

/-- The deepest field-block nesting reached while scanning `lines` from
state `st` (including the initial state). -/
def nestMax (st : List Bool) : List GoStr → Nat
  | [] => fieldCount st
  | l :: ls => max (fieldCount st) (nestMax (scanLine st l) ls)

/-- The deepest nesting of object/interface field blocks in a selection
text, scanned from the empty state. -/
def fieldNest (lines : List GoStr) : Nat := nestMax [] lines

/-- The adjacency constraint of well-formed output: a block-opening line
is never immediately followed by a closing line (no empty block), and what
follows an opener is an interior line, i.e. starts with a tab. -/
def lineRel (a b : GoStr) : Prop :=
  isOpenLine a = true → (isCloseLine b = false ∧ b.head? = some '\t')

/-- A character acceptable in a GraphQL schema name for the purposes of
this analysis: not a newline, tab, space, brace, or dot. -/
def cleanChar (c : Char) : Bool :=
  !(c = '\n' || c = '\t' || c = ' ' || c = '\x7b' || c = '\x7d' || c = '.')

/-- A well-formed schema name: nonempty and made of clean characters. -/
def CleanName (n : GoStr) : Bool := !n.isEmpty && n.all cleanChar

/-- All names the synthesizer may emit from a Type are well-formed. -/
def CleanType (t : GType) : Bool :=
  t.fields.all (fun f => CleanName f.name) &&
    t.possibleTypes.all (fun pt => CleanName pt.refName)

/-- All types of the registry are well-formed. -/
def CleanSchema (s : Schema) : Bool := s.types.all CleanType

/-- The structural well-formedness invariant of everything the
synthesizer emits: lines are nonempty and newline-free, the brace scan is
balanced from every initial state, adjacent lines satisfy `lineRel`, the
first line is not a closer and the last line is not an opener. -/
structure GoodLines (lines : List GoStr) : Prop where
  mem : ∀ l ∈ lines, l ≠ [] ∧ '\n' ∉ l
  balanced : ∀ st, scanAll st lines = st
  chain : lines.Chain' lineRel
  firstOk : ∀ l, lines.head? = some l → isCloseLine l = false
  lastOk : ∀ l, lines.getLast? = some l → isOpenLine l = false

/-! ### Split/join lemmas -/

theorem ssplit_ne_nil (s : GoStr) : ssplit s ≠ [] := by
  cases s with
  | nil => simp [ssplit]
  | cons c rest =>
    simp only [ssplit]
    cases h : ssplit rest with
    | nil => simp
    | cons p ps => by_cases hc : c = '\n' <;> simp [hc]

theorem ssplit_no_newline (s : GoStr) : ∀ p ∈ ssplit s, '\n' ∉ p := by
  induction s with
  | nil => simp [ssplit]
  | cons c rest ih =>
    intro p hp
    simp only [ssplit] at hp
    rcases h : ssplit rest with _ | ⟨q, qs⟩
    · exact absurd h (ssplit_ne_nil rest)
    · rw [h] at hp
      by_cases hc : c = '\n'
      · simp [hc] at hp
        rcases hp with hp | hp | hp
        · simp [hp]
        · exact ih p (by rw [h]; simp [hp])
        · exact ih p (by rw [h]; simp [hp])
      · simp [hc] at hp
        rcases hp with hp | hp
        · subst hp
          intro hmem
          rcases List.mem_cons.mp hmem with hh | hh
          · exact hc hh.symm
          · exact ih q (by rw [h]; simp) hh
        · exact ih p (by rw [h]; simp [hp])

theorem ssplit_append_newline (a b : GoStr) (ha : '\n' ∉ a) :
    ssplit (a ++ '\n' :: b) = a :: ssplit b := by
  induction a with
  | nil =>
    simp only [List.nil_append, ssplit]
    cases h : ssplit b with
    | nil => exact absurd h (ssplit_ne_nil b)
    | cons p ps => rfl
  | cons c a ih =>
    have hc : ¬ c = '\n' := fun h => ha (h ▸ List.mem_cons_self c a)
    have ha' : '\n' ∉ a := fun h => ha (List.mem_cons_of_mem c h)
    rw [List.cons_append]
    simp only [ssplit]
    rw [ih ha']
    simp [hc]

theorem ssplit_of_no_newline (a : GoStr) (ha : '\n' ∉ a) : ssplit a = [a] := by
  induction a with
  | nil => simp [ssplit]
  | cons c a ih =>
    have hc : ¬ c = '\n' := fun h => ha (h ▸ List.mem_cons_self c a)
    have ha' : '\n' ∉ a := fun h => ha (List.mem_cons_of_mem c h)
    simp [ssplit, ih ha', hc]

theorem ssplit_sjoin (ls : List GoStr) (hne : ls ≠ [])
    (hnl : ∀ l ∈ ls, '\n' ∉ l) : ssplit (sjoin ls) = ls := by
  induction ls with
  | nil => exact absurd rfl hne
  | cons l rest ih =>
    cases rest with
    | nil => simpa [sjoin] using ssplit_of_no_newline l (hnl l (by simp))
    | cons l' rest' =>
      have h1 : '\n' ∉ l := hnl l (by simp)
      have h2 : ∀ x ∈ l' :: rest', '\n' ∉ x := fun x hx => hnl x (by simp [hx])
      simp only [sjoin]
      rw [ssplit_append_newline l (sjoin (l' :: rest')) h1, ih (by simp) h2]

theorem sjoin_eq_nil (ls : List GoStr) (h : sjoin ls = [])
    (hne : ∀ l ∈ ls, l ≠ []) : ls = [] := by
  cases ls with
  | nil => rfl
  | cons l rest =>
    cases rest with
    | nil => exact absurd (by simpa [sjoin] using h) (hne l (by simp))
    | cons l' rest' =>
      simp only [sjoin] at h
      rcases List.append_eq_nil.mp h with ⟨_, h2⟩
      exact absurd h2 (by simp)

theorem sjoin_ne_nil_of_mem (ls : List GoStr) (l : GoStr) (hl : l ∈ ls)
    (hne : l ≠ []) : sjoin ls ≠ [] := by
  intro h
  cases ls with
  | nil => cases hl
  | cons a rest =>
    cases rest with
    | nil =>
      simp only [sjoin] at h
      rcases List.mem_singleton.mp hl with rfl
      exact hne h
    | cons a' rest' =>
      simp only [sjoin] at h
      rcases List.append_eq_nil.mp h with ⟨_, h2⟩
      exact absurd h2 (by simp)

end Tutone

namespace Tutone

/-! ### Scan lemmas -/

theorem scanAll_append (st : List Bool) (A B : List GoStr) :
    scanAll st (A ++ B) = scanAll (scanAll st A) B :=
  List.foldl_append _ _ _ _

theorem fieldCount_le_nestMax (st : List Bool) (ls : List GoStr) :
    fieldCount st ≤ nestMax st ls := by
  cases ls with
  | nil => exact le_of_eq rfl
  | cons l ls => exact le_max_left _ _

theorem scanAll_nil (st : List Bool) : scanAll st [] = st := rfl

theorem scanAll_cons (st : List Bool) (l : GoStr) (ls : List GoStr) :
    scanAll st (l :: ls) = scanAll (scanLine st l) ls := rfl

theorem nestMax_nil (st : List Bool) : nestMax st [] = fieldCount st := rfl

theorem nestMax_cons (st : List Bool) (l : GoStr) (ls : List GoStr) :
    nestMax st (l :: ls) = max (fieldCount st) (nestMax (scanLine st l) ls) := rfl

theorem nestMax_append (st : List Bool) (A B : List GoStr) :
    nestMax st (A ++ B) = max (nestMax st A) (nestMax (scanAll st A) B) := by
  induction A generalizing st with
  | nil =>
    rw [List.nil_append, scanAll_nil, nestMax_nil,
      max_eq_right (fieldCount_le_nestMax st B)]
  | cons l A ih =>
    rw [List.cons_append, nestMax_cons, nestMax_cons, scanAll_cons, ih, max_assoc]

theorem fieldCount_cons_true (st : List Bool) :
    fieldCount (true :: st) = fieldCount st + 1 := by
  simp [fieldCount, List.countP_cons]

theorem fieldCount_cons_false (st : List Bool) :
    fieldCount (false :: st) = fieldCount st := by
  simp [fieldCount, List.countP_cons]

theorem fieldCount_tail_le (st : List Bool) :
    fieldCount st.tail ≤ fieldCount st := by
  cases st with
  | nil => exact le_of_eq rfl
  | cons b st =>
    show fieldCount st ≤ fieldCount (b :: st)
    cases b
    · rw [fieldCount_cons_false]
    · rw [fieldCount_cons_true]; exact Nat.le_succ _

/-! ### Line classification for clean names and the fixed markers -/

theorem cleanName_ne_nil {n : GoStr} (h : CleanName n = true) : n ≠ [] := by
  have h' := h
  simp only [CleanName, Bool.and_eq_true] at h'
  simpa using h'.1

theorem cleanName_chars {n : GoStr} (h : CleanName n = true) :
    ∀ c ∈ n, cleanChar c = true := by
  have h' := h
  simp only [CleanName, Bool.and_eq_true] at h'
  exact List.all_eq_true.mp h'.2

theorem cleanChar_spec {c : Char} (h : cleanChar c = true) :
    c ≠ '\n' ∧ c ≠ '\t' ∧ c ≠ ' ' ∧ c ≠ '\x7b' ∧ c ≠ '\x7d' ∧ c ≠ '.' := by
  simp only [cleanChar, Bool.not_eq_true', Bool.or_eq_false_iff,
    decide_eq_false_iff_not] at h
  tauto

theorem cleanName_no_newline {n : GoStr} (h : CleanName n = true) : '\n' ∉ n := by
  intro hmem
  exact (cleanChar_spec (cleanName_chars h _ hmem)).1 rfl

theorem cleanName_not_open {n : GoStr} (h : CleanName n = true) :
    isOpenLine n = false := by
  cases hb : isOpenLine n with
  | false => rfl
  | true =>
    exfalso
    have ho : n.reverse.take 2 = ['\x7b', ' '] := by simpa [isOpenLine] using hb
    have hm : ('\x7b' : Char) ∈ n.reverse.take 2 := by rw [ho]; simp
    have hm2 : ('\x7b' : Char) ∈ n := List.mem_reverse.mp (List.take_subset _ _ hm)
    exact (cleanChar_spec (cleanName_chars h _ hm2)).2.2.2.1 rfl

theorem dropTabs_eq_self_of_clean {n : GoStr} (h : CleanName n = true) :
    dropTabs n = n := by
  rcases n with _ | ⟨c, r⟩
  · rfl
  · have : c ≠ '\t' := (cleanChar_spec (cleanName_chars h c (by simp))).2.1
    simp [dropTabs, List.dropWhile_cons, this]

theorem cleanName_not_close {n : GoStr} (h : CleanName n = true) :
    isCloseLine n = false := by
  have hd := dropTabs_eq_self_of_clean h
  cases hb : isCloseLine n with
  | false => rfl
  | true =>
    exfalso
    have hc : dropTabs n = closeLine := by simpa [isCloseLine] using hb
    rw [hd] at hc
    have : ('\x7d' : Char) ∈ n := by rw [hc]; simp [closeLine]
    exact (cleanChar_spec (cleanName_chars h _ this)).2.2.2.2.1 rfl

theorem scanLine_of_neutral {l : GoStr} (h1 : isOpenLine l = false)
    (h2 : isCloseLine l = false) (st : List Bool) : scanLine st l = st := by
  simp [scanLine, h1, h2]

theorem cleanName_head_not_tab {n : GoStr} (h : CleanName n = true) :
    n.head? ≠ some '\t' := by
  rcases n with _ | ⟨c, r⟩
  · simp
  · have : c ≠ '\t' := (cleanChar_spec (cleanName_chars h c (by simp))).2.1
    simpa using this

theorem isOpenLine_append_openSuffix (n : GoStr) :
    isOpenLine (n ++ openSuffix) = true := by
  simp [isOpenLine, openSuffix, List.take]

theorem isFragLine_fragOpenLine (n : GoStr) :
    isFragLine (fragOpenLine n) = true := by
  simp [isFragLine, fragOpenLine, fragPrefix, openSuffix, dropTabs, List.take]

theorem isOpenLine_fragOpenLine (n : GoStr) :
    isOpenLine (fragOpenLine n) = true := by
  have : fragOpenLine n = (fragPrefix ++ n) ++ openSuffix := by
    simp [fragOpenLine, List.append_assoc]
  rw [this]
  exact isOpenLine_append_openSuffix _

theorem isFragLine_name_open {n : GoStr} (h : CleanName n = true) :
    isFragLine (n ++ openSuffix) = false := by
  rcases hn : n with _ | ⟨c, r⟩
  · exact absurd hn (cleanName_ne_nil h)
  · have hc : c ≠ '\t' ∧ c ≠ '.' := by
      have := cleanChar_spec (cleanName_chars h c (by rw [hn]; simp))
      exact ⟨this.2.1, this.2.2.2.2.2⟩
    cases hb : isFragLine ((c :: r) ++ openSuffix) with
    | false => rfl
    | true =>
      exfalso
      have hf : (dropTabs ((c :: r) ++ openSuffix)).take 7 = fragPrefix := by
        simpa [isFragLine] using hb
      rw [show dropTabs ((c :: r) ++ openSuffix) = (c :: r) ++ openSuffix by
        simp [dropTabs, List.dropWhile_cons, hc.1]] at hf
      have : c = '.' := by
        have h7 : ((c :: (r ++ openSuffix)).take 7).head? = fragPrefix.head? := by
          rw [← hf]; rfl
        simpa [List.take, fragPrefix] using h7
      exact hc.2 this

theorem isFieldOpen_name_open {n : GoStr} (h : CleanName n = true) :
    isFieldOpen (n ++ openSuffix) = true := by
  simp [isFieldOpen, isOpenLine_append_openSuffix, isFragLine_name_open h]

theorem isFieldOpen_fragOpenLine (n : GoStr) :
    isFieldOpen (fragOpenLine n) = false := by
  simp [isFieldOpen, isFragLine_fragOpenLine]

theorem isCloseLine_append_openSuffix {n : GoStr} (hd : dropTabs (n ++ openSuffix) = n ++ openSuffix) :
    isCloseLine (n ++ openSuffix) = false := by
  simp only [isCloseLine, hd]
  cases hb : (decide (n ++ openSuffix = closeLine)) with
  | false => rfl
  | true =>
    exfalso
    have heq : n ++ openSuffix = closeLine := of_decide_eq_true hb
    have hlen := congrArg List.length heq
    simp only [List.length_append, openSuffix, closeLine, List.length_cons,
      List.length_nil] at hlen
    omega

theorem isCloseLine_name_open {n : GoStr} (h : CleanName n = true) :
    isCloseLine (n ++ openSuffix) = false := by
  apply isCloseLine_append_openSuffix
  rcases hn : n with _ | ⟨c, r⟩
  · exact absurd hn (cleanName_ne_nil h)
  · have hc : c ≠ '\t' := (cleanChar_spec (cleanName_chars h c (by rw [hn]; simp))).2.1
    simp [dropTabs, List.dropWhile_cons, hc]

theorem isCloseLine_fragOpenLine (n : GoStr) :
    isCloseLine (fragOpenLine n) = false := by
  have : fragOpenLine n = (fragPrefix ++ n) ++ openSuffix := by
    simp [fragOpenLine, List.append_assoc]
  rw [this]
  apply isCloseLine_append_openSuffix
  simp [dropTabs, fragPrefix, List.dropWhile_cons]

theorem isOpenLine_closeLine : isOpenLine closeLine = false := by decide

theorem isCloseLine_closeLine : isCloseLine closeLine = true := by decide

theorem isOpenLine_tabTypename : isOpenLine tabTypename = false := by decide

theorem isCloseLine_tabTypename : isCloseLine tabTypename = false := by decide

end Tutone

namespace Tutone

/-! ### Indentation is transparent to the analysis

Nesting a block indents each interior line with one tab
(`fmt.Sprintf("\t%s", b)`); tabs change neither the classification of a
line nor the brace scan. -/

theorem isOpenLine_indent (l : GoStr) : isOpenLine ('\t' :: l) = isOpenLine l := by
  simp only [isOpenLine, List.reverse_cons]
  cases h : l.reverse with
  | nil => simp
  | cons a rest =>
    cases rest with
    | nil => simp [List.take]
    | cons b rest2 => simp [List.take]

theorem dropTabs_indent (l : GoStr) : dropTabs ('\t' :: l) = dropTabs l := by
  simp [dropTabs, List.dropWhile_cons]

theorem isCloseLine_indent (l : GoStr) : isCloseLine ('\t' :: l) = isCloseLine l := by
  simp [isCloseLine, dropTabs_indent]

theorem isFragLine_indent (l : GoStr) : isFragLine ('\t' :: l) = isFragLine l := by
  simp [isFragLine, dropTabs_indent]

theorem isFieldOpen_indent (l : GoStr) : isFieldOpen ('\t' :: l) = isFieldOpen l := by
  simp [isFieldOpen, isOpenLine_indent, isFragLine_indent]

theorem scanLine_indent (st : List Bool) (l : GoStr) :
    scanLine st ('\t' :: l) = scanLine st l := by
  simp [scanLine, isOpenLine_indent, isCloseLine_indent, isFieldOpen_indent]

theorem scanAll_indent (st : List Bool) (ls : List GoStr) :
    scanAll st (ls.map (fun b => '\t' :: b)) = scanAll st ls := by
  induction ls generalizing st with
  | nil => rfl
  | cons l ls ih => rw [List.map_cons, scanAll_cons, scanAll_cons, scanLine_indent, ih]

theorem nestMax_indent (st : List Bool) (ls : List GoStr) :
    nestMax st (ls.map (fun b => '\t' :: b)) = nestMax st ls := by
  induction ls generalizing st with
  | nil => rfl
  | cons l ls ih => rw [List.map_cons, nestMax_cons, nestMax_cons, scanLine_indent, ih]

theorem chain_indent {ls : List GoStr} (h : ls.Chain' lineRel) :
    (ls.map (fun b => '\t' :: b)).Chain' lineRel := by
  rw [List.chain'_map]
  refine List.Chain'.imp ?_ h
  intro a b hab
  intro hopen
  rw [isOpenLine_indent] at hopen
  refine ⟨by rw [isCloseLine_indent]; exact (hab hopen).1, by simp⟩

/-! ### GoodLines combinators -/

theorem goodLines_nil : GoodLines [] := by
  refine ⟨by simp, fun st => rfl, List.chain'_nil, by simp, by simp⟩

theorem goodLines_append {A B : List GoStr} (hA : GoodLines A) (hB : GoodLines B) :
    GoodLines (A ++ B) := by
  refine ⟨?_, ?_, ?_, ?_, ?_⟩
  · intro l hl
    rcases List.mem_append.mp hl with h | h
    · exact hA.mem l h
    · exact hB.mem l h
  · intro st
    rw [scanAll_append, hA.balanced, hB.balanced]
  · refine hA.chain.append hB.chain ?_
    intro x hx y hy
    intro hopen
    rw [hA.lastOk x hx] at hopen
    cases hopen
  · intro l hl
    cases A with
    | nil => exact hB.firstOk l (by simpa using hl)
    | cons a A' =>
      have ha : a = l := by simpa using hl
      exact ha ▸ hA.firstOk a rfl
  · intro l hl
    cases B with
    | nil => exact hA.lastOk l (by simpa using hl)
    | cons b B' =>
      refine hB.lastOk l ?_
      rw [← hl, List.getLast?_append_cons]

/-- A single neutral, clean line (a bare leaf field name) is good. -/
theorem goodLines_single {l : GoStr} (hne : l ≠ []) (hnl : '\n' ∉ l)
    (h1 : isOpenLine l = false) (h2 : isCloseLine l = false) :
    GoodLines [l] := by
  refine ⟨by simpa using ⟨hne, hnl⟩, ?_, List.chain'_singleton l, ?_, ?_⟩
  · intro st
    rw [scanAll_cons, scanAll_nil, scanLine_of_neutral h1 h2]
  · intro x hx
    cases Option.some.inj hx
    exact h2
  · intro x hx
    cases Option.some.inj hx
    exact h1

end Tutone

namespace Tutone

/-! ### Concrete classification facts for the fixed lines -/

theorem isOpenLine_nil_line : isOpenLine [] = false := by decide

theorem isCloseLine_nil_line : isCloseLine [] = false := by decide

theorem isOpenLine_tabOnly : isOpenLine ['\t'] = false := by decide

theorem isCloseLine_tabOnly : isCloseLine ['\t'] = false := by decide

theorem newline_not_mem_tabTypename : '\n' ∉ tabTypename := by decide

theorem newline_not_mem_closeLine : '\n' ∉ closeLine := by decide

theorem tabTypename_head : tabTypename.head? = some '\t' := rfl

theorem newline_not_mem_name_open {n : GoStr} (h : CleanName n = true) :
    '\n' ∉ n ++ openSuffix := by
  intro hmem
  rcases List.mem_append.mp hmem with hm | hm
  · exact cleanName_no_newline h hm
  · simp [openSuffix] at hm

theorem newline_not_mem_fragOpenLine {n : GoStr} (h : CleanName n = true) :
    '\n' ∉ fragOpenLine n := by
  intro hmem
  simp only [fragOpenLine, List.append_assoc, List.mem_append] at hmem
  rcases hmem with hm | hm | hm
  · simp [fragPrefix] at hm
  · exact cleanName_no_newline h hm
  · simp [openSuffix] at hm

theorem stringInStrings_iff_mem (x : GoStr) (l : List GoStr) :
    stringInStrings x l = true ↔ x ∈ l := by
  simp only [stringInStrings, List.any_eq_true, decide_eq_true_eq]
  constructor
  · rintro ⟨y, hy, rfl⟩; exact hy
  · intro hx; exact ⟨x, hx, rfl⟩

/-! ### Filtering neutral lines (the fragment-body de-duplication) -/

theorem scanAll_filter (p : GoStr → Bool) (ls : List GoStr)
    (hdrop : ∀ l ∈ ls, p l = false → isOpenLine l = false ∧ isCloseLine l = false) :
    ∀ st, scanAll st (ls.filter p) = scanAll st ls := by
  induction ls with
  | nil => intro st; rfl
  | cons l ls ih =>
    intro st
    have htail := fun x hx => hdrop x (List.mem_cons_of_mem _ hx)
    cases hp : p l with
    | true =>
      rw [List.filter_cons, if_pos (by rw [hp]), scanAll_cons, scanAll_cons,
        ih htail]
    | false =>
      have hn := hdrop l (by simp) hp
      rw [List.filter_cons, if_neg (by rw [hp]; simp), scanAll_cons,
        scanLine_of_neutral hn.1 hn.2, ih htail]

theorem nestMax_filter_le (p : GoStr → Bool) (ls : List GoStr)
    (hdrop : ∀ l ∈ ls, p l = false → isOpenLine l = false ∧ isCloseLine l = false) :
    ∀ st, nestMax st (ls.filter p) ≤ nestMax st ls := by
  induction ls with
  | nil => intro st; exact le_of_eq rfl
  | cons l ls ih =>
    intro st
    have htail := fun x hx => hdrop x (List.mem_cons_of_mem _ hx)
    cases hp : p l with
    | true =>
      rw [List.filter_cons, if_pos (by rw [hp]), nestMax_cons, nestMax_cons]
      exact max_le_max (le_refl _) (ih htail _)
    | false =>
      have hn := hdrop l (by simp) hp
      rw [List.filter_cons, if_neg (by rw [hp]; simp), nestMax_cons,
        scanLine_of_neutral hn.1 hn.2]
      exact le_trans (ih htail st) (le_max_right _ _)

theorem chain_filter (p : GoStr → Bool) :
    ∀ ls : List GoStr, ls.Chain' lineRel →
      (∀ l ∈ ls, p l = false → isOpenLine l = false ∧ l.head? ≠ some '\t') →
      (ls.filter p).Chain' lineRel := by
  intro ls
  induction ls with
  | nil => intro _ _; simp
  | cons a ls ih =>
    intro hchain hdrop
    have htail := fun x hx => hdrop x (List.mem_cons_of_mem _ hx)
    rcases List.chain'_cons'.mp hchain with ⟨hhead, htl⟩
    cases hp : p a with
    | false =>
      rw [List.filter_cons, if_neg (by rw [hp]; simp)]
      exact ih htl htail
    | true =>
      rw [List.filter_cons, if_pos (by rw [hp])]
      refine List.chain'_cons'.mpr ⟨?_, ih htl htail⟩
      intro y hy
      cases hopena : isOpenLine a with
      | false => intro hco; rw [hopena] at hco; cases hco
      | true =>
        cases ls with
        | nil => simp at hy
        | cons z ls' =>
          have hz : lineRel a z := hhead z rfl
          have hztab : z.head? = some '\t' := (hz hopena).2
          have hzkeep : p z = true := by
            cases hpz : p z with
            | true => rfl
            | false => exact absurd hztab (hdrop z (by simp) hpz).2
          have : (z :: ls').filter p = z :: ls'.filter p := by
            rw [List.filter_cons, if_pos (by rw [hzkeep])]
          rw [this] at hy
          have hyz : z = y := by simpa using hy
          exact hyz ▸ hz

theorem lastOk_filter (p : GoStr → Bool) :
    ∀ ls : List GoStr, ls.Chain' lineRel →
      (∀ l ∈ ls, p l = false → isOpenLine l = false ∧ l.head? ≠ some '\t') →
      (∀ l, ls.getLast? = some l → isOpenLine l = false) →
      ∀ l, (ls.filter p).getLast? = some l → isOpenLine l = false := by
  intro ls
  induction ls with
  | nil => intro _ _ _ l hl; simp at hl
  | cons a ls ih =>
    intro hchain hdrop hlast l hl
    have htail := fun x hx => hdrop x (List.mem_cons_of_mem _ hx)
    rcases List.chain'_cons'.mp hchain with ⟨hhead, htl⟩
    have hlast' : ∀ x, ls.getLast? = some x → isOpenLine x = false := by
      intro x hx
      cases ls with
      | nil => simp at hx
      | cons b ls' => exact hlast x (by rw [List.getLast?_cons_cons]; exact hx)
    cases hp : p a with
    | false =>
      rw [List.filter_cons, if_neg (by rw [hp]; simp)] at hl
      exact ih htl htail hlast' l hl
    | true =>
      rw [List.filter_cons, if_pos (by rw [hp])] at hl
      cases hfl : ls.filter p with
      | nil =>
        rw [hfl] at hl
        have hla : a = l := by simpa using hl
        rw [← hla]
        cases hopena : isOpenLine a with
        | false => rfl
        | true =>
          exfalso
          cases ls with
          | nil =>
            have hfa : isOpenLine a = false := hlast a (by simp)
            rw [hfa] at hopena
            cases hopena
          | cons z ls' =>
            have hz : lineRel a z := hhead z rfl
            have hztab : z.head? = some '\t' := (hz hopena).2
            have hzkeep : p z = true := by
              cases hpz : p z with
              | true => rfl
              | false => exact absurd hztab (hdrop z (by simp) hpz).2
            have : (z :: ls').filter p = z :: ls'.filter p := by
              rw [List.filter_cons, if_pos (by rw [hzkeep])]
            rw [this] at hfl
            cases hfl
      | cons w ws =>
        rw [hfl, List.getLast?_cons_cons] at hl
        exact ih htl htail hlast' l (by rw [hfl]; exact hl)

/-! ### Good lines under indentation -/

theorem goodLines_indent {ls : List GoStr} (h : GoodLines ls) :
    GoodLines (ls.map (fun b => '\t' :: b)) := by
  refine ⟨?_, ?_, chain_indent h.chain, ?_, ?_⟩
  · intro l hl
    rcases List.mem_map.mp hl with ⟨b, hb, rfl⟩
    refine ⟨by simp, ?_⟩
    intro hmem
    rcases List.mem_cons.mp hmem with hm | hm
    · exact absurd hm (by decide)
    · exact (h.mem b hb).2 hm
  · intro st
    rw [scanAll_indent]
    exact h.balanced st
  · intro l hl
    rw [List.head?_map] at hl
    rcases Option.map_eq_some'.mp hl with ⟨b, hb, rfl⟩
    rw [isCloseLine_indent]
    exact h.firstOk b hb
  · intro l hl
    rw [List.getLast?_map] at hl
    rcases Option.map_eq_some'.mp hl with ⟨b, hb, rfl⟩
    rw [isOpenLine_indent]
    exact h.lastOk b hb

end Tutone

namespace Tutone

/-! ### Block segments -/

/-- A well-formed nested block: an opener, a nonempty body whose lines are
indented interior lines, and the closer. -/
theorem goodLines_block {openL : GoStr} {body : List GoStr}
    (hopen : isOpenLine openL = true)
    (hopenNotClose : isCloseLine openL = false)
    (hopenNe : openL ≠ []) (hopenNl : '\n' ∉ openL)
    (hbody_ne : body ≠ [])
    (hmem : ∀ l ∈ body, l ≠ [] ∧ '\n' ∉ l)
    (hbal : ∀ st, scanAll st body = st)
    (hchain : body.Chain' lineRel)
    (hfirst : ∀ l, body.head? = some l → isCloseLine l = false ∧ l.head? = some '\t')
    (hlast : ∀ l, body.getLast? = some l → isOpenLine l = false) :
    GoodLines (openL :: (body ++ [closeLine])) := by
  refine ⟨?_, ?_, ?_, ?_, ?_⟩
  · intro l hl
    rcases List.mem_cons.mp hl with rfl | hl
    · exact ⟨hopenNe, hopenNl⟩
    rcases List.mem_append.mp hl with hl | hl
    · exact hmem l hl
    · have hlc : l = closeLine := by simpa using hl
      subst hlc
      exact ⟨by simp [closeLine], newline_not_mem_closeLine⟩
  · intro st
    rw [scanAll_cons, show scanLine st openL = isFieldOpen openL :: st from by
      simp [scanLine, hopen], scanAll_append, hbal, scanAll_cons, scanAll_nil,
      show scanLine (isFieldOpen openL :: st) closeLine = st from by
        simp [scanLine, isOpenLine_closeLine, isCloseLine_closeLine]]
  · refine List.chain'_cons'.mpr ⟨?_, ?_⟩
    · intro y hy
      cases body with
      | nil => exact absurd rfl hbody_ne
      | cons b body' =>
        have hb : b = y := by simpa using hy
        subst hb
        exact fun _ => hfirst b rfl
    · refine hchain.append (List.chain'_singleton _) ?_
      intro x hx y hy
      intro hopenx
      rw [hlast x hx] at hopenx
      cases hopenx
  · intro l hl
    have hol : openL = l := by simpa using hl
    exact hol ▸ hopenNotClose
  · intro l hl
    rw [show openL :: (body ++ [closeLine]) = (openL :: body) ++ [closeLine] from rfl,
      List.getLast?_concat] at hl
    have hcl : closeLine = l := by simpa using hl
    exact hcl ▸ isOpenLine_closeLine

theorem nestMax_block {openL : GoStr} {body : List GoStr}
    (hopen : isOpenLine openL = true)
    (hbal : ∀ st, scanAll st body = st) (st : List Bool) :
    nestMax st (openL :: (body ++ [closeLine])) =
      max (fieldCount st) (nestMax (isFieldOpen openL :: st) body) := by
  rw [nestMax_cons, show scanLine st openL = isFieldOpen openL :: st from by
    simp [scanLine, hopen], nestMax_append, hbal, nestMax_cons, nestMax_nil,
    show scanLine (isFieldOpen openL :: st) closeLine = st from by
      simp [scanLine, isOpenLine_closeLine, isCloseLine_closeLine]]
  have h2 : fieldCount st ≤ fieldCount (isFieldOpen openL :: st) := by
    cases isFieldOpen openL with
    | true => rw [fieldCount_cons_true]; omega
    | false => rw [fieldCount_cons_false]
  rw [max_eq_left h2, max_eq_left (fieldCount_le_nestMax _ _)]

/-! ### The running invariant of the synthesizer -/

/-- The invariant carried through the synthesizer's loops: the
accumulated lines are well formed and their field-block nesting is
bounded by `K` above any scan state. -/
def LinesInv (K : Nat) (lines : List GoStr) : Prop :=
  GoodLines lines ∧ ∀ st, nestMax st lines ≤ fieldCount st + K

theorem linesInv_nil (K : Nat) : LinesInv K [] :=
  ⟨goodLines_nil, fun st => by rw [nestMax_nil]; omega⟩

theorem linesInv_append {K : Nat} {A B : List GoStr}
    (hA : LinesInv K A) (hB : LinesInv K B) : LinesInv K (A ++ B) := by
  refine ⟨goodLines_append hA.1 hB.1, ?_⟩
  intro st
  rw [nestMax_append, hA.1.balanced]
  exact max_le (hA.2 st) (hB.2 st)

theorem linesInv_leaf (K : Nat) {n : GoStr} (h : CleanName n = true) :
    LinesInv K [n] := by
  refine ⟨goodLines_single (cleanName_ne_nil h) (cleanName_no_newline h)
    (cleanName_not_open h) (cleanName_not_close h), ?_⟩
  intro st
  rw [nestMax_cons, nestMax_nil,
    scanLine_of_neutral (cleanName_not_open h) (cleanName_not_close h), max_self]
  omega

/-- What a successful recursive synthesis call provides: the returned
string is the join of a good, nesting-bounded line list.  `Ksub` is the
bound for the depth at which `recur` synthesizes. -/
def RecurOk (recur : GType → Option GoStr) (s : Schema) (Ksub : Nat) : Prop :=
  ∀ u, u ∈ s.types → ∀ str, recur u = some str →
    ∃ ls, str = sjoin ls ∧ GoodLines ls ∧
      ∀ st, nestMax st ls ≤ fieldCount st + Ksub

end Tutone

namespace Tutone

/-- The lines appended for one object/interface field: the opener, the
optional interface discriminator, the indented sub-selection, the
closer.  `Ksub` bounds the sub-selection's nesting; the segment adds one
field level. -/
theorem linesInv_fieldSeg {K Ksub : Nat} (hKK : 1 + Ksub ≤ K) {name : GoStr}
    (hn : CleanName name = true) {ls : List GoStr} (hgood : GoodLines ls)
    (hlsne : ls ≠ [])
    (hbound : ∀ st, nestMax st ls ≤ fieldCount st + Ksub)
    (opt : List GoStr) (hopt : opt = [] ∨ opt = [tabTypename]) :
    LinesInv K ((name ++ openSuffix) ::
      (opt ++ ls.map (fun b => '\t' :: b) ++ [closeLine])) := by
  have hassoc : (name ++ openSuffix) ::
        (opt ++ ls.map (fun b => '\t' :: b) ++ [closeLine])
      = (name ++ openSuffix) ::
        ((opt ++ ls.map (fun b => '\t' :: b)) ++ [closeLine]) := by
    rw [List.append_assoc]
  rw [hassoc]
  have hoptGood : GoodLines opt := by
    rcases hopt with rfl | rfl
    · exact goodLines_nil
    · exact goodLines_single (by simp [tabTypename]) newline_not_mem_tabTypename
        isOpenLine_tabTypename isCloseLine_tabTypename
  have hindent := goodLines_indent hgood
  have hbodyGood : GoodLines (opt ++ ls.map (fun b => '\t' :: b)) :=
    goodLines_append hoptGood hindent
  have hmapne : ls.map (fun b => '\t' :: b) ≠ [] := by
    simpa using hlsne
  have hbody_ne : opt ++ ls.map (fun b => '\t' :: b) ≠ [] := by
    intro h
    exact hmapne (List.append_eq_nil.mp h).2
  have hfirst : ∀ l, (opt ++ ls.map (fun b => '\t' :: b)).head? = some l →
      isCloseLine l = false ∧ l.head? = some '\t' := by
    rcases hopt with rfl | rfl
    · intro l hl
      rw [List.nil_append, List.head?_map] at hl
      rcases Option.map_eq_some'.mp hl with ⟨b, hb, rfl⟩
      exact ⟨by rw [isCloseLine_indent]; exact hgood.firstOk b hb, by simp⟩
    · intro l hl
      have ht : tabTypename = l := by simpa using hl
      exact ht ▸ ⟨isCloseLine_tabTypename, tabTypename_head⟩
  have hlast : ∀ l, (opt ++ ls.map (fun b => '\t' :: b)).getLast? = some l →
      isOpenLine l = false := by
    intro l hl
    rw [List.getLast?_append_of_ne_nil _ hmapne, List.getLast?_map] at hl
    rcases Option.map_eq_some'.mp hl with ⟨b, hb, rfl⟩
    rw [isOpenLine_indent]
    exact hgood.lastOk b hb
  refine ⟨goodLines_block (isOpenLine_append_openSuffix name)
      (isCloseLine_name_open hn) (by simp [openSuffix])
      (newline_not_mem_name_open hn) hbody_ne hbodyGood.mem hbodyGood.balanced
      hbodyGood.chain hfirst hlast, ?_⟩
  intro st
  rw [nestMax_block (isOpenLine_append_openSuffix name) hbodyGood.balanced st,
    isFieldOpen_name_open hn, nestMax_append]
  have hopt1 : nestMax (true :: st) opt = fieldCount (true :: st) := by
    rcases hopt with rfl | rfl
    · rw [nestMax_nil]
    · rw [nestMax_cons, nestMax_nil,
        scanLine_of_neutral isOpenLine_tabTypename isCloseLine_tabTypename, max_self]
  rw [hopt1, hoptGood.balanced (true :: st), nestMax_indent,
    max_eq_right (fieldCount_le_nestMax _ _)]
  have h3 := hbound (true :: st)
  rw [fieldCount_cons_true] at h3
  refine max_le (by omega) (by omega)

/-- The lines appended for one inline fragment: the fragment opener, the
discriminator, the filtered and indented sub-selection, the closer.  The
fragment opens a non-field block, so the nesting bound is preserved. -/
theorem linesInv_fragSeg {K : Nat} {name : GoStr} (hn : CleanName name = true)
    (bodyTail : List GoStr)
    (hmem : ∀ l ∈ bodyTail, l ≠ [] ∧ '\n' ∉ l)
    (hbal : ∀ st, scanAll st bodyTail = st)
    (hchain : bodyTail.Chain' lineRel)
    (hlast : ∀ l, bodyTail.getLast? = some l → isOpenLine l = false)
    (hnest : ∀ st, nestMax st bodyTail ≤ fieldCount st + K) :
    LinesInv K (fragOpenLine name :: tabTypename :: (bodyTail ++ [closeLine])) := by
  have hshape : fragOpenLine name :: tabTypename :: (bodyTail ++ [closeLine])
      = fragOpenLine name :: ((tabTypename :: bodyTail) ++ [closeLine]) := rfl
  rw [hshape]
  have hbody_mem : ∀ l ∈ tabTypename :: bodyTail, l ≠ [] ∧ '\n' ∉ l := by
    intro l hl
    rcases List.mem_cons.mp hl with rfl | hl
    · exact ⟨by simp [tabTypename], newline_not_mem_tabTypename⟩
    · exact hmem l hl
  have hbody_bal : ∀ st, scanAll st (tabTypename :: bodyTail) = st := by
    intro st
    rw [scanAll_cons,
      scanLine_of_neutral isOpenLine_tabTypename isCloseLine_tabTypename]
    exact hbal st
  have hbody_chain : (tabTypename :: bodyTail).Chain' lineRel := by
    refine List.chain'_cons'.mpr ⟨?_, hchain⟩
    intro y hy
    intro hopen
    rw [isOpenLine_tabTypename] at hopen
    cases hopen
  have hbody_first : ∀ l, (tabTypename :: bodyTail).head? = some l →
      isCloseLine l = false ∧ l.head? = some '\t' := by
    intro l hl
    have ht : tabTypename = l := by simpa using hl
    exact ht ▸ ⟨isCloseLine_tabTypename, tabTypename_head⟩
  have hbody_last : ∀ l, (tabTypename :: bodyTail).getLast? = some l →
      isOpenLine l = false := by
    intro l hl
    cases hbt : bodyTail with
    | nil =>
      rw [hbt] at hl
      have ht : tabTypename = l := by simpa using hl
      exact ht ▸ isOpenLine_tabTypename
    | cons b bt =>
      rw [hbt, List.getLast?_cons_cons] at hl
      exact hlast l (by rw [hbt]; exact hl)
  refine ⟨goodLines_block (isOpenLine_fragOpenLine name)
      (isCloseLine_fragOpenLine name) (by simp [fragOpenLine, fragPrefix])
      (newline_not_mem_fragOpenLine hn) (by simp) hbody_mem hbody_bal hbody_chain
      hbody_first hbody_last, ?_⟩
  intro st
  rw [nestMax_block (isOpenLine_fragOpenLine name) hbody_bal st,
    isFieldOpen_fragOpenLine, nestMax_cons,
    scanLine_of_neutral isOpenLine_tabTypename isCloseLine_tabTypename,
    fieldCount_cons_false]
  have h1 := hnest (false :: st)
  rw [fieldCount_cons_false] at h1
  exact max_le (by omega) (max_le (by omega) (by omega))

end Tutone

namespace Tutone

/-- The field loop preserves the lines invariant and collects only clean
parent field names. -/
theorem fieldsLoop_inv (recur : GType → Option GoStr) (s : Schema)
    (depth maxD : Int) (mu : Bool) (ex : List GoStr)
    (hrec : RecurOk recur s ((maxD - depth).toNat)) :
    ∀ (fields : List Field) (lines parents : List GoStr)
      (out : List GoStr × List GoStr),
      (∀ f ∈ fields, CleanName f.name = true) →
      LinesInv ((maxD - depth + 1).toNat) lines →
      (∀ pn ∈ parents, CleanName pn = true) →
      fieldsLoop recur s depth maxD mu ex fields lines parents = some out →
      LinesInv ((maxD - depth + 1).toNat) out.1 ∧
        ∀ pn ∈ out.2, CleanName pn = true := by
  intro fields
  induction fields with
  | nil =>
    intro lines parents out hf hl hp hrun
    rw [fieldsLoop] at hrun
    cases Option.some.inj hrun
    exact ⟨hl, hp⟩
  | cons field rest ih =>
    intro lines parents out hf hl hp hrun
    have hfname : CleanName field.name = true := hf field (by simp)
    have hftail : ∀ f ∈ rest, CleanName f.name = true :=
      fun f hfr => hf f (List.mem_cons_of_mem _ hfr)
    rw [fieldsLoop] at hrun
    by_cases h1 : (!mu && field.HasRequiredArg) = true
    · rw [if_pos h1] at hrun
      exact ih lines parents out hftail hl hp hrun
    · rw [if_neg h1] at hrun
      by_cases h2 : stringInStrings field.name ex = true
      · rw [if_pos h2] at hrun
        exact ih lines parents out hftail hl hp hrun
      · rw [if_neg h2] at hrun
        by_cases h3 : field.type.leafKind = Kind.OBJECT ∨
            field.type.leafKind = Kind.INTERFACE
        · rw [if_pos h3] at hrun
          by_cases h4 : depth > maxD
          · rw [if_pos h4] at hrun
            exact ih lines parents out hftail hl hp hrun
          · rw [if_neg h4] at hrun
            cases hlk : s.LookupTypeByName field.type.GetTypeName with
            | none =>
              simp only [hlk] at hrun
              exact ih lines parents out hftail hl hp hrun
            | some subT =>
              simp only [hlk] at hrun
              cases hrc : recur subT with
              | none => simp only [hrc] at hrun; cases hrun
              | some content =>
                simp only [hrc] at hrun
                by_cases h5 : content = [] ∨ (ssplit content).length < 1
                · rw [if_pos h5] at hrun
                  exact ih lines parents out hftail hl hp hrun
                · rw [if_neg h5] at hrun
                  have hcne : content ≠ [] := fun hc => h5 (Or.inl hc)
                  rcases hrec subT (List.mem_of_find?_eq_some hlk) content hrc
                    with ⟨ls, rfl, hgood, hbound⟩
                  have hlsne : ls ≠ [] := by
                    intro h0
                    subst h0
                    exact hcne rfl
                  have hsplit : ssplit (sjoin ls) = ls :=
                    ssplit_sjoin ls hlsne (fun l hl' => (hgood.mem l hl').2)
                  rw [hsplit] at hrun
                  have hKK : 1 + (maxD - depth).toNat ≤ (maxD - depth + 1).toNat := by
                    omega
                  have hseg := linesInv_fieldSeg hKK hfname hgood hlsne hbound
                    (if field.type.leafKind = Kind.INTERFACE then [tabTypename] else [])
                    (by
                      by_cases h6 : field.type.leafKind = Kind.INTERFACE
                      · rw [if_pos h6]
                        exact Or.inr rfl
                      · rw [if_neg h6]
                        exact Or.inl rfl)
                  exact ih _ parents out hftail (linesInv_append hl hseg) hp hrun
        · rw [if_neg h3] at hrun
          refine ih _ _ out hftail
            (linesInv_append hl (linesInv_leaf _ hfname)) ?_ hrun
          intro pn hpn
          rcases List.mem_append.mp hpn with hpn | hpn
          · exact hp pn hpn
          · have hpe : pn = field.name := by simpa using hpn
            exact hpe ▸ hfname

/-- The possible-types loop preserves the lines invariant: fragments open
non-field blocks, and the de-duplication filter removes only neutral
parent-name lines. -/
theorem possLoop_inv (recur : GType → Option GoStr) (s : Schema) (Ksub K : Nat)
    (hrec : RecurOk recur s Ksub) (hK : Ksub ≤ K) :
    ∀ (pts : List TypeRef) (lines parents : List GoStr) (out : List GoStr),
      (∀ pt ∈ pts, CleanName pt.refName = true) →
      (∀ pn ∈ parents, CleanName pn = true) →
      LinesInv K lines →
      possLoop recur s pts lines parents = some out →
      LinesInv K out := by
  intro pts
  induction pts with
  | nil =>
    intro lines parents out hpt hp hl hrun
    rw [possLoop] at hrun
    cases Option.some.inj hrun
    exact hl
  | cons pt rest ih =>
    intro lines parents out hpt hp hl hrun
    have hptname : CleanName pt.refName = true := hpt pt (by simp)
    have hpttail : ∀ q ∈ rest, CleanName q.refName = true :=
      fun q hq => hpt q (List.mem_cons_of_mem _ hq)
    rw [possLoop] at hrun
    cases hlk : s.LookupTypeByName pt.refName with
    | none => simp only [hlk] at hrun; cases hrun
    | some possibleT =>
      simp only [hlk] at hrun
      cases hrc : recur possibleT with
      | none => simp only [hrc] at hrun; cases hrun
      | some content =>
        simp only [hrc] at hrun
        rcases hrec possibleT (List.mem_of_find?_eq_some hlk) content hrc
          with ⟨ls, rfl, hgood, hbound⟩
        by_cases hlse : ls = []
        · subst hlse
          have hkeep : stringInStrings [] parents = false := by
            cases hsi : stringInStrings [] parents with
            | false => rfl
            | true =>
              exact absurd rfl
                (cleanName_ne_nil (hp [] ((stringInStrings_iff_mem [] parents).mp hsi)))
          have hfe : List.filter (fun b => !stringInStrings b parents)
              (ssplit (sjoin ([] : List GoStr))) = [[]] := by
            rw [show ssplit (sjoin ([] : List GoStr)) = [[]] from rfl,
              List.filter_cons, if_pos (by simp [hkeep])]
            rfl
          rw [hfe] at hrun
          have hseg := @linesInv_fragSeg K pt.refName hptname [['\t']]
            (by
              intro l hl'
              have hle : l = ['\t'] := by simpa using hl'
              subst hle
              exact ⟨by simp, by decide⟩)
            (by
              intro st
              rw [scanAll_cons, scanAll_nil,
                scanLine_of_neutral isOpenLine_tabOnly isCloseLine_tabOnly])
            (List.chain'_singleton _)
            (by
              intro l hl'
              have hle : ['\t'] = l := by simpa using hl'
              exact hle ▸ isOpenLine_tabOnly)
            (by
              intro st
              rw [nestMax_cons, nestMax_nil,
                scanLine_of_neutral isOpenLine_tabOnly isCloseLine_tabOnly, max_self]
              omega)
          exact ih _ parents out hpttail hp (linesInv_append hl hseg) hrun
        · have hsplit : ssplit (sjoin ls) = ls :=
            ssplit_sjoin ls hlse (fun l hl' => (hgood.mem l hl').2)
          rw [hsplit] at hrun
          have hkeepmem : ∀ l ∈ ls, (!stringInStrings l parents) = false →
              l ∈ parents := by
            intro l _ hkeep
            refine (stringInStrings_iff_mem l parents).mp ?_
            cases hsi : stringInStrings l parents with
            | true => rfl
            | false => rw [hsi] at hkeep; cases hkeep
          have hdrop : ∀ l ∈ ls, (!stringInStrings l parents) = false →
              isOpenLine l = false ∧ isCloseLine l = false := by
            intro l hml hkeep
            have hcl := hp l (hkeepmem l hml hkeep)
            exact ⟨cleanName_not_open hcl, cleanName_not_close hcl⟩
          have hdrop2 : ∀ l ∈ ls, (!stringInStrings l parents) = false →
              isOpenLine l = false ∧ l.head? ≠ some '\t' := by
            intro l hml hkeep
            have hcl := hp l (hkeepmem l hml hkeep)
            exact ⟨cleanName_not_open hcl, cleanName_head_not_tab hcl⟩
          have hseg := linesInv_fragSeg hptname
            ((ls.filter (fun b => !stringInStrings b parents)).map
              (fun b => '\t' :: b))
            (by
              intro l hl'
              rcases List.mem_map.mp hl' with ⟨b, hb, rfl⟩
              refine ⟨by simp, ?_⟩
              intro hmem
              rcases List.mem_cons.mp hmem with hm | hm
              · exact absurd hm (by decide)
              · exact (hgood.mem b (List.mem_of_mem_filter hb)).2 hm)
            (by
              intro st
              rw [scanAll_indent, scanAll_filter _ ls hdrop st, hgood.balanced])
            (chain_indent (chain_filter _ ls hgood.chain hdrop2))
            (by
              intro l hl'
              rw [List.getLast?_map] at hl'
              rcases Option.map_eq_some'.mp hl' with ⟨b, hb, rfl⟩
              rw [isOpenLine_indent]
              exact lastOk_filter _ ls hgood.chain hdrop2 hgood.lastOk b hb)
            (by
              intro st
              rw [nestMax_indent]
              have h6 : fieldCount st + Ksub ≤ fieldCount st + K := by omega
              exact le_trans (nestMax_filter_le _ ls hdrop st)
                (le_trans (hbound st) h6))
          exact ih _ parents out hpttail hp (linesInv_append hl hseg) hrun

end Tutone

namespace Tutone

theorem mem_orderedInsertF (lt : GoStr → GoStr → Bool) (f g : Field) :
    ∀ l : List Field, g ∈ orderedInsertF lt f l → g = f ∨ g ∈ l := by
  intro l
  induction l with
  | nil =>
    intro h
    simp only [orderedInsertF] at h
    exact Or.inl (by simpa using h)
  | cons x xs ih =>
    intro h
    simp only [orderedInsertF] at h
    by_cases hc : lt x.name f.name
    · rw [if_pos hc] at h
      rcases List.mem_cons.mp h with rfl | h
      · exact Or.inr (by simp)
      · rcases ih h with h | h
        · exact Or.inl h
        · exact Or.inr (List.mem_cons_of_mem _ h)
    · rw [if_neg hc] at h
      rcases List.mem_cons.mp h with rfl | h
      · exact Or.inl rfl
      · exact Or.inr h

theorem mem_of_mem_sortFieldsByName {f : Field} :
    ∀ {l : List Field}, f ∈ sortFieldsByName l → f ∈ l := by
  intro l
  induction l with
  | nil => intro h; simp [sortFieldsByName] at h
  | cons x xs ih =>
    intro h
    rw [sortFieldsByName] at h
    rcases mem_orderedInsertF strLt x f _ h with rfl | h
    · simp
    · exact List.mem_cons_of_mem _ (ih h)

/-- The master invariant of the selection-set synthesizer: whenever
`gqsfLines` succeeds on a well-formed schema, its output is a well-formed
line list whose object/interface field-block nesting above any scan state
is bounded by `maxDepth - depth`. -/
theorem gqsfLines_inv :
    ∀ (fuel : Nat) (t : GType) (s : Schema) (d maxD : Int) (mu : Bool)
      (ex : List GoStr) (lines : List GoStr),
      CleanSchema s = true → CleanType t = true →
      gqsfLines fuel t s d maxD mu ex = some lines →
      GoodLines lines ∧
        ∀ st, nestMax st lines ≤ fieldCount st + (maxD - d).toNat := by
  intro fuel
  induction fuel with
  | zero =>
    intro t s d maxD mu ex lines hs ht hrun
    rw [gqsfLines] at hrun
    cases hrun
  | succ fuel ihf =>
    intro t s d maxD mu ex lines hs ht hrun
    rw [gqsfLines] at hrun
    have hrecOk : RecurOk
        (fun u => (gqsfLines fuel u s (d + 1) maxD mu ex).map sjoin) s
        ((maxD - (d + 1)).toNat) := by
      intro u hu str hstr
      rcases Option.map_eq_some'.mp hstr with ⟨ls, hls, rfl⟩
      have hut : CleanType u = true := by
        have hs' := hs
        simp only [CleanSchema, List.all_eq_true] at hs'
        exact hs' u hu
      have hres := ihf u s (d + 1) maxD mu ex ls hs hut hls
      exact ⟨ls, rfl, hres.1, hres.2⟩
    cases hfl : fieldsLoop
        (fun u => (gqsfLines fuel u s (d + 1) maxD mu ex).map sjoin) s
        (d + 1) maxD mu ex (sortFieldsByName t.fields) [] [] with
    | none => simp only [hfl] at hrun; cases hrun
    | some p =>
      obtain ⟨lines0, parents⟩ := p
      simp only [hfl] at hrun
      have ht' := ht
      simp only [CleanType, Bool.and_eq_true, List.all_eq_true] at ht'
      have hsorted : ∀ f ∈ sortFieldsByName t.fields, CleanName f.name = true :=
        fun f hfmem => ht'.1 f (mem_of_mem_sortFieldsByName hfmem)
      have hpts : ∀ pt ∈ t.possibleTypes, CleanName pt.refName = true := ht'.2
      have harith : (maxD - (d + 1)).toNat ≤ (maxD - (d + 1) + 1).toNat :=
        Int.toNat_le_toNat (by omega)
      have h0 := fieldsLoop_inv _ s (d + 1) maxD mu ex hrecOk
        (sortFieldsByName t.fields) [] [] (lines0, parents) hsorted
        (linesInv_nil _) (by simp) hfl
      have h1 := possLoop_inv _ s ((maxD - (d + 1)).toNat)
        ((maxD - (d + 1) + 1).toNat) hrecOk harith t.possibleTypes lines0
        parents lines hpts h0.2 h0.1 hrun
      have heq : (maxD - (d + 1) + 1).toNat = (maxD - d).toNat := by
        congr 1
        ring
      rw [heq] at h1
      exact ⟨h1.1, h1.2⟩

end Tutone

namespace Tutone

/-! ## Concrete schemas used by the claim instances -/

/-- A scalar field with no arguments. -/
def mkScalarField (n : String) (tn : String) : Field :=
  { name := n.toList, type := TypeRef.leaf Kind.SCALAR tn.toList, args := [] }

/-- The Animal/Dog/Cat interface scenario of the spec. -/
def animalT : GType :=
  { name := "Animal".toList, kind := Kind.INTERFACE
  , fields := [mkScalarField "name" "String", mkScalarField "age" "Int"]
  , inputFields := []
  , possibleTypes := [TypeRef.leaf Kind.OBJECT "Dog".toList,
      TypeRef.leaf Kind.OBJECT "Cat".toList] }

def dogT : GType :=
  { name := "Dog".toList, kind := Kind.OBJECT
  , fields := [mkScalarField "name" "String", mkScalarField "age" "Int",
      mkScalarField "breed" "String"]
  , inputFields := [], possibleTypes := [] }

def catT : GType :=
  { name := "Cat".toList, kind := Kind.OBJECT
  , fields := [mkScalarField "name" "String", mkScalarField "age" "Int",
      mkScalarField "indoor" "Boolean"]
  , inputFields := [], possibleTypes := [] }

def animalSchema : Schema := { types := [animalT, dogT, catT] }

/-- A two-level object nesting: `AA { f: BB! }`, `BB { g: Int }`. -/
def bbT : GType :=
  { name := "BB".toList, kind := Kind.OBJECT
  , fields := [mkScalarField "g" "Int"], inputFields := [], possibleTypes := [] }

def aaField : Field :=
  { name := "f".toList
  , type := TypeRef.wrap Kind.NON_NULL (TypeRef.leaf Kind.OBJECT "BB".toList)
  , args := [] }

def aaT : GType :=
  { name := "AA".toList, kind := Kind.OBJECT, fields := [aaField]
  , inputFields := [], possibleTypes := [] }

def nestedSchema : Schema := { types := [aaT, bbT] }

/-- A union whose only possible type is absent from the registry. -/
def ghostHostT : GType :=
  { name := "U".toList, kind := Kind.UNION, fields := [], inputFields := []
  , possibleTypes := [TypeRef.leaf Kind.OBJECT "Ghost".toList] }

def ghostSchema : Schema := { types := [ghostHostT] }

/-- `owner(id: ID!): ID` — a field whose only argument is required. -/
def ownerArg : Argument :=
  { name := "id".toList
  , type := TypeRef.wrap Kind.NON_NULL (TypeRef.leaf Kind.SCALAR "ID".toList)
  , defaultValue := none }

def ownerField : Field :=
  { name := "owner".toList, type := TypeRef.leaf Kind.SCALAR "ID".toList
  , args := [ownerArg] }

def ownerHostT : GType :=
  { name := "Host".toList, kind := Kind.OBJECT, fields := [ownerField]
  , inputFields := [], possibleTypes := [] }

def ownerSchema : Schema := { types := [ownerHostT] }

/-! ## Claim C2 -/

/-- Claim C2: for every Type, Schema and maxDepth `D`, the selection text
produced by `GetQueryStringFields` contains no path of nested
object/interface fields deeper than `D` levels (relative to the depth the
call starts at): depth is incremented once per recursive descent into an
object/interface-typed field, and a field past the budget is omitted
entirely.  Formally: on any successful run over a well-formed schema, the
field-block nesting of the returned text's lines is at most
`(maxDepth - depth).toNat`; the exported call starts at depth 0, giving
the claimed bound `D`. -/
theorem C2_depth_bound (fuel : Nat) (t : GType) (s : Schema) (d maxD : Int)
    (mu : Bool) (ex : List GoStr) (str : GoStr)
    (hs : CleanSchema s = true) (ht : CleanType t = true)
    (hrun : GetQueryStringFields fuel t s d maxD mu ex = some str) :
    fieldNest (ssplit str) ≤ (maxD - d).toNat := by
  rcases Option.map_eq_some'.mp hrun with ⟨lines, hlines, rfl⟩
  have h := gqsfLines_inv fuel t s d maxD mu ex lines hs ht hlines
  by_cases hne : lines = []
  · subst hne
    have hz : fieldNest (ssplit (sjoin ([] : List GoStr))) = 0 := rfl
    rw [hz]
    exact Nat.zero_le _
  · rw [ssplit_sjoin lines hne (fun l hl => (h.1.mem l hl).2)]
    have h2 := h.2 []
    simpa [fieldNest, fieldCount] using h2

/-- Witness for C2 at the concrete nested schema `AA { f: BB! }` with
maxDepth 2: the hypotheses hold and the bound follows by the theorem. -/
theorem C2_depth_bound_witness :
    CleanSchema nestedSchema = true ∧ CleanType aaT = true ∧
    GetQueryStringFields 4 aaT nestedSchema 0 2 false [] =
      some ("f \x7b\n\tg\n\x7d".toList) ∧
    fieldNest (ssplit ("f \x7b\n\tg\n\x7d".toList)) ≤ ((2 : Int) - 0).toNat :=
  ⟨by decide, by decide, by decide,
    C2_depth_bound 4 aaT nestedSchema 0 2 false [] ("f \x7b\n\tg\n\x7d".toList)
      (by decide) (by decide) (by decide)⟩

/-! ## Claim C3 -/

/-- Claim C3: the synthesis output never contains a field name opening a
block that is immediately closed: in the returned text, no line that opens
a block (ends in `" \x7b"`) is immediately followed by a closing line, so
every emitted block has at least one line between its braces.  The
recursion guarantees this by skipping a field entirely whenever its
sub-selection is empty. -/
theorem C3_no_empty_blocks (fuel : Nat) (t : GType) (s : Schema) (d maxD : Int)
    (mu : Bool) (ex : List GoStr) (str : GoStr)
    (hs : CleanSchema s = true) (ht : CleanType t = true)
    (hrun : GetQueryStringFields fuel t s d maxD mu ex = some str) :
    (ssplit str).Chain' (fun a b => ¬(isOpenLine a = true ∧ isCloseLine b = true)) := by
  rcases Option.map_eq_some'.mp hrun with ⟨lines, hlines, rfl⟩
  have h := gqsfLines_inv fuel t s d maxD mu ex lines hs ht hlines
  by_cases hne : lines = []
  · subst hne
    show (ssplit (sjoin ([] : List GoStr))).Chain' _
    rw [show ssplit (sjoin ([] : List GoStr)) = [[]] from rfl]
    exact List.chain'_singleton _
  · rw [ssplit_sjoin lines hne (fun l hl => (h.1.mem l hl).2)]
    refine List.Chain'.imp ?_ h.1.chain
    intro a b hab
    rintro ⟨ha, hb⟩
    rw [(hab ha).1] at hb
    cases hb

/-- Witness for C3 at the Animal interface scenario. -/
theorem C3_no_empty_blocks_witness :
    CleanSchema animalSchema = true ∧ CleanType animalT = true ∧
    GetQueryStringFields 3 animalT animalSchema 0 1 false [] =
      some ("age\nname\n... on Dog \x7b\n\t__typename\n\tbreed\n\x7d\n... on Cat \x7b\n\t__typename\n\tindoor\n\x7d".toList) ∧
    (ssplit ("age\nname\n... on Dog \x7b\n\t__typename\n\tbreed\n\x7d\n... on Cat \x7b\n\t__typename\n\tindoor\n\x7d".toList)).Chain'
      (fun a b => ¬(isOpenLine a = true ∧ isCloseLine b = true)) :=
  ⟨by decide, by decide, by decide,
    C3_no_empty_blocks 3 animalT animalSchema 0 1 false []
      ("age\nname\n... on Dog \x7b\n\t__typename\n\tbreed\n\x7d\n... on Cat \x7b\n\t__typename\n\tindoor\n\x7d".toList)
      (by decide) (by decide) (by decide)⟩

end Tutone

namespace Tutone

/-- The possible-types loop only appends, and on success appends one
fragment opener immediately followed by the discriminator line for every
possible type. -/
theorem possLoop_frags (recur : GType → Option GoStr) (s : Schema) :
    ∀ (pts : List TypeRef) (lines parents out : List GoStr),
      possLoop recur s pts lines parents = some out →
      (∃ tail, out = lines ++ tail) ∧
        ∀ pt ∈ pts, ∃ l1 l2,
          out = l1 ++ fragOpenLine pt.refName :: tabTypename :: l2 := by
  intro pts
  induction pts with
  | nil =>
    intro lines parents out hrun
    rw [possLoop] at hrun
    cases Option.some.inj hrun
    exact ⟨⟨[], by simp⟩, by simp⟩
  | cons pt rest ih =>
    intro lines parents out hrun
    rw [possLoop] at hrun
    cases hlk : s.LookupTypeByName pt.refName with
    | none => simp only [hlk] at hrun; cases hrun
    | some possibleT =>
      simp only [hlk] at hrun
      cases hrc : recur possibleT with
      | none => simp only [hrc] at hrun; cases hrun
      | some content =>
        simp only [hrc] at hrun
        rcases ih _ parents out hrun with ⟨⟨tail, htail⟩, hall⟩
        constructor
        · refine ⟨fragOpenLine pt.refName :: tabTypename ::
            (((ssplit content).filter (fun b => !stringInStrings b parents)).map
                (fun b => '\t' :: b) ++ [closeLine]) ++ tail, ?_⟩
          rw [htail, List.append_assoc]
        · intro q hq
          rcases List.mem_cons.mp hq with rfl | hq
          · refine ⟨lines,
              (((ssplit content).filter (fun b => !stringInStrings b parents)).map
                  (fun b => '\t' :: b) ++ [closeLine]) ++ tail, ?_⟩
            rw [htail]
            simp [List.append_assoc]
          · exact hall q hq

/-- Claim C10: for every Type whose PossibleTypes list is non-empty,
whenever `GetQueryStringFields` completes (in particular all possible
types resolved, since an unresolved one crashes the call), the output
contains one inline fragment per possible type — the opener
`"... on <name> \x7b"` immediately followed by the `"\t__typename"`
discriminator — regardless of depth, maxDepth, the mutation flag or the
exclusion set; consequently the joined selection text is non-empty, so a
parent field whose sub-type has possible types is never dropped by the
empty-sub-selection rule. -/
theorem C10_fragments_always (fuel : Nat) (t : GType) (s : Schema)
    (d maxD : Int) (mu : Bool) (ex : List GoStr) (lines : List GoStr)
    (hrun : gqsfLines fuel t s d maxD mu ex = some lines)
    (hne : t.possibleTypes ≠ []) :
    (∀ pt ∈ t.possibleTypes, ∃ l1 l2,
        lines = l1 ++ fragOpenLine pt.refName :: tabTypename :: l2) ∧
      GetQueryStringFields fuel t s d maxD mu ex = some (sjoin lines) ∧
      sjoin lines ≠ [] := by
  cases fuel with
  | zero => rw [gqsfLines] at hrun; cases hrun
  | succ fuel =>
    rw [gqsfLines] at hrun
    cases hfl : fieldsLoop
        (fun u => (gqsfLines fuel u s (d + 1) maxD mu ex).map sjoin) s
        (d + 1) maxD mu ex (sortFieldsByName t.fields) [] [] with
    | none => simp only [hfl] at hrun; cases hrun
    | some p =>
      obtain ⟨lines0, parents⟩ := p
      simp only [hfl] at hrun
      rcases possLoop_frags _ s t.possibleTypes lines0 parents lines hrun
        with ⟨_, hall⟩
      refine ⟨hall, ?_, ?_⟩
      · rw [GetQueryStringFields, gqsfLines, hfl]
        simp only [hrun, Option.map_some']
      · rcases List.exists_mem_of_ne_nil t.possibleTypes hne with ⟨pt, hpt⟩
        rcases hall pt hpt with ⟨l1, l2, rfl⟩
        refine sjoin_ne_nil_of_mem _ (fragOpenLine pt.refName) (by simp) ?_
        simp [fragOpenLine, fragPrefix]

/-- Witness for C10 at the Animal interface scenario. -/
theorem C10_fragments_always_witness :
    gqsfLines 3 animalT animalSchema 0 1 false [] =
      some ["age".toList, "name".toList, "... on Dog \x7b".toList,
        "\t__typename".toList, "\tbreed".toList, "\x7d".toList,
        "... on Cat \x7b".toList, "\t__typename".toList, "\tindoor".toList,
        "\x7d".toList] ∧
    animalT.possibleTypes ≠ [] ∧
    ((∀ pt ∈ animalT.possibleTypes, ∃ l1 l2,
        ["age".toList, "name".toList, "... on Dog \x7b".toList,
          "\t__typename".toList, "\tbreed".toList, "\x7d".toList,
          "... on Cat \x7b".toList, "\t__typename".toList, "\tindoor".toList,
          "\x7d".toList] = l1 ++ fragOpenLine pt.refName :: tabTypename :: l2) ∧
      GetQueryStringFields 3 animalT animalSchema 0 1 false [] =
        some (sjoin ["age".toList, "name".toList, "... on Dog \x7b".toList,
          "\t__typename".toList, "\tbreed".toList, "\x7d".toList,
          "... on Cat \x7b".toList, "\t__typename".toList, "\tindoor".toList,
          "\x7d".toList]) ∧
      sjoin ["age".toList, "name".toList, "... on Dog \x7b".toList,
        "\t__typename".toList, "\tbreed".toList, "\x7d".toList,
        "... on Cat \x7b".toList, "\t__typename".toList, "\tindoor".toList,
        "\x7d".toList] ≠ []) :=
  ⟨by decide, by decide,
    C10_fragments_always 3 animalT animalSchema 0 1 false [] _
      (by decide) (by decide)⟩

end Tutone

namespace Tutone

/-- Claim C4: in non-mutation context a field with at least one required
argument contributes nothing — processing a field list is identical to
processing the list with all required-argument fields removed — while in
mutation context the check is not applied: the concrete `owner(id: ID!)`
field appears in the mutation output and the non-mutation output is
empty. -/
theorem C4_required_arg_exclusion :
    (∀ (recur : GType → Option GoStr) (s : Schema) (depth maxD : Int)
        (ex : List GoStr) (fields : List Field) (lines parents : List GoStr),
        fieldsLoop recur s depth maxD false ex fields lines parents =
          fieldsLoop recur s depth maxD false ex
            (fields.filter (fun f => !f.HasRequiredArg)) lines parents) ∧
    GetQueryStringFields 2 ownerHostT ownerSchema 0 3 true [] =
      some ("owner".toList) ∧
    GetQueryStringFields 2 ownerHostT ownerSchema 0 3 false [] = some [] := by
  refine ⟨?_, by decide, by decide⟩
  intro recur s depth maxD ex fields
  induction fields with
  | nil => intro lines parents; rfl
  | cons f rest ih =>
    intro lines parents
    cases hreq : f.HasRequiredArg with
    | true =>
      rw [List.filter_cons, if_neg (by simp [hreq]), fieldsLoop,
        if_pos (by simp [hreq])]
      exact ih lines parents
    | false =>
      rw [List.filter_cons, if_pos (by simp [hreq])]
      simp only [fieldsLoop]
      have h1 : ¬(!false && f.HasRequiredArg) = true := by simp [hreq]
      rw [if_neg h1, if_neg h1]
      by_cases h2 : stringInStrings f.name ex = true
      · rw [if_pos h2, if_pos h2]
        exact ih lines parents
      · rw [if_neg h2, if_neg h2]
        by_cases h3 : f.type.leafKind = Kind.OBJECT ∨ f.type.leafKind = Kind.INTERFACE
        · rw [if_pos h3, if_pos h3]
          by_cases h4 : depth > maxD
          · rw [if_pos h4, if_pos h4]
            exact ih lines parents
          · rw [if_neg h4, if_neg h4]
            cases hlk : s.LookupTypeByName f.type.GetTypeName with
            | none =>
              simp only [hlk]
              exact ih lines parents
            | some subT =>
              simp only [hlk]
              cases hrc : recur subT with
              | none => simp only [hrc]
              | some content =>
                simp only [hrc]
                by_cases h5 : content = [] ∨ (ssplit content).length < 1
                · rw [if_pos h5, if_pos h5]
                  exact ih lines parents
                · rw [if_neg h5, if_neg h5]
                  exact ih _ parents
        · rw [if_neg h3, if_neg h3]
          exact ih _ _

end Tutone

namespace Tutone

/-! ## Claim C6 -/

/-- Claim C6 (code bug): when a PossibleType's name cannot be resolved,
`LookupTypeByName` fails, the source merely logs the error without
skipping, and then invokes `GetQueryStringFields` on the nil result —
dereferencing the nil receiver (`sort.SliceStable(t.Fields, ...)` on a nil
`*Type`), a runtime panic.  Evaluating the embedding at the failing input
(type `U` with possible type `Ghost` absent from the registry) yields the
crash marker `none`, contradicting the claimed log-and-continue
behavior. -/
theorem C6_unresolved_possible_type_crash :
    ghostSchema.LookupTypeByName ("Ghost".toList) = none ∧
    gqsfLines 3 ghostHostT ghostSchema 0 5 false [] = none ∧
    GetQueryStringFields 3 ghostHostT ghostSchema 0 5 false [] = none := by
  decide

/-! ## Claim C8 -/

/-- The lines the code actually emits for the Animal scenario. -/
def animalActualLines : List GoStr :=
  ["age".toList, "name".toList,
    "... on Dog \x7b".toList, "\t__typename".toList, "\tbreed".toList,
    "\x7d".toList,
    "... on Cat \x7b".toList, "\t__typename".toList, "\tindoor".toList,
    "\x7d".toList]

/-- The lines the claim asserts the code yields for the Animal scenario:
a top-level `__typename`, then `age`, `name`, then the Cat fragment
before the Dog fragment. -/
def animalClaimedLines : List GoStr :=
  ["__typename".toList, "age".toList, "name".toList,
    "... on Cat \x7b".toList, "\t__typename".toList, "\tindoor".toList,
    "\x7d".toList,
    "... on Dog \x7b".toList, "\t__typename".toList, "\tbreed".toList,
    "\x7d".toList]

/-- Counterexample to claim C8: synthesizing `Animal` at maxDepth 1 does
not yield the claimed lines — there is no top-level `__typename` line at
all, and the fragments follow the declaration order `[Dog, Cat]`, not
Cat-then-Dog. -/
theorem C8_counterexample :
    gqsfLines 3 animalT animalSchema 0 1 false [] = some animalActualLines ∧
    "__typename".toList ∉ animalActualLines ∧
    animalActualLines ≠ animalClaimedLines := by
  decide

/-- Claim C8 (amended): synthesizing `Animal` at maxDepth 1 yields
exactly `age`, `name` (direct fields in ascending lexical order, no
top-level discriminator), then one inline fragment per possible type in
declaration order — `... on Dog` containing `__typename` and `breed`,
then `... on Cat` containing `__typename` and `indoor` — with the
parent's fields `age`/`name` not repeated inside the fragments. -/
theorem C8_interface_scenario :
    GetQueryStringFields 3 animalT animalSchema 0 1 false [] =
      some ("age\nname\n... on Dog \x7b\n\t__typename\n\tbreed\n\x7d\n... on Cat \x7b\n\t__typename\n\tindoor\n\x7d".toList) ∧
    gqsfLines 3 animalT animalSchema 0 1 false [] = some animalActualLines := by
  decide

/-! ## Claim C1 -/

/-- `Query` whose only field is `widget: Widget` as a bare (unwrapped)
leaf reference. -/
def widgetBareField : Field :=
  { name := "widget".toList, type := TypeRef.leaf Kind.OBJECT "Widget".toList
  , args := [] }

def queryBareT : GType :=
  { name := "Query".toList, kind := Kind.OBJECT, fields := [widgetBareField]
  , inputFields := [], possibleTypes := [] }

/-- `Widget` with field `part: Part` as a bare leaf reference. -/
def partBareField : Field :=
  { name := "part".toList, type := TypeRef.leaf Kind.OBJECT "Part".toList
  , args := [] }

def widgetBareT : GType :=
  { name := "Widget".toList, kind := Kind.OBJECT, fields := [partBareField]
  , inputFields := [], possibleTypes := [] }

def partT : GType :=
  { name := "Part".toList, kind := Kind.OBJECT, fields := []
  , inputFields := [], possibleTypes := [] }

def bareSchema : Schema := { types := [queryBareT, widgetBareT, partT] }

/-- The same shape with non-null wrapped references
(`widget: Widget!`, `part: Part!`). -/
def widgetWrapField : Field :=
  { name := "widget".toList
  , type := TypeRef.wrap Kind.NON_NULL (TypeRef.leaf Kind.OBJECT "Widget".toList)
  , args := [] }

def queryWrapT : GType :=
  { name := "Query".toList, kind := Kind.OBJECT, fields := [widgetWrapField]
  , inputFields := [], possibleTypes := [] }

def partWrapField : Field :=
  { name := "part".toList
  , type := TypeRef.wrap Kind.NON_NULL (TypeRef.leaf Kind.OBJECT "Part".toList)
  , args := [] }

def widgetWrapT : GType :=
  { name := "Widget".toList, kind := Kind.OBJECT, fields := [partWrapField]
  , inputFields := [], possibleTypes := [] }

def wrapSchema : Schema := { types := [queryWrapT, widgetWrapT, partT] }

/-- Equality of `Except` results is decidable when both components are. -/
instance instDecEqExcept {e a : Type} [DecidableEq e] [DecidableEq a] :
    DecidableEq (Except e a) := fun x y =>
  match x, y with
  | .ok v, .ok w =>
    if h : v = w then isTrue (by rw [h])
    else isFalse (by intro he; cases he; exact h rfl)
  | .error v, .error w =>
    if h : v = w then isTrue (by rw [h])
    else isFalse (by intro he; cases he; exact h rfl)
  | .ok _, .error _ => isFalse (by intro he; cases he)
  | .error _, .ok _ => isFalse (by intro he; cases he)

/-- Counterexample to claim C1: with root `Query` whose only field is the
bare reference `widget: Widget`, the type `Widget` is one hop away
through the field's unwrapped leaf TypeRef and present in the registry,
yet the expansion output is just `[Query]` — `ExpandType` follows a field
only when its TypeRef has a non-nil `OfType` wrapper, so the claimed
"every type reachable by following each field's unwrapped leaf TypeRef
one hop" fails. -/
theorem C1_counterexample :
    ExpandTypes (some bareSchema) [{ name := "Query".toList }] =
      Except.ok [queryBareT] ∧
    widgetBareT ∈ bareSchema.types ∧
    (queryBareT.fields.all
      (fun f => f.type.GetTypeName = "Widget".toList)) = true ∧
    [queryBareT].all (fun u => !(u.name = "Widget".toList)) = true := by
  decide

end Tutone

namespace Tutone

/-- Membership in the deduplicating append fold of `ExpandTypes`. -/
theorem mem_dedup_foldl (fs : List GType) :
    ∀ (acc : List GType) (u : GType),
      u ∈ fs.foldl (fun a f => if hasType f a then a else a ++ [f]) acc →
      u ∈ acc ∨ u ∈ fs := by
  induction fs with
  | nil => intro acc u h; exact Or.inl h
  | cons f fs ih =>
    intro acc u h
    rw [List.foldl_cons] at h
    rcases ih _ u h with h' | h'
    · by_cases hc : hasType f acc = true
      · rw [if_pos hc] at h'
        exact Or.inl h'
      · rw [if_neg hc] at h'
        rcases List.mem_append.mp h' with h2 | h2
        · exact Or.inl h2
        · have hu : u = f := by simpa using h2
          exact Or.inr (by simp [hu])
    · exact Or.inr (List.mem_cons_of_mem _ h')

/-- What membership in the `ExpandTypes` output means: a root match, or a
one-hop `ExpandType` expansion of a root match. -/
def ExpandedFrom (s : Schema) (types : List TypeInfo) (u : GType) : Prop :=
  (u ∈ s.types ∧ typeNameInTypes u.GetName types = true) ∨
  ∃ r ∈ s.types, typeNameInTypes r.GetName types = true ∧
    ∃ fs, ExpandType (some s) (some r) = .ok fs ∧ u ∈ fs

theorem expandTypes_fold_sound (s : Schema) (types : List TypeInfo) :
    ∀ (l : List GType) (acc : List GType),
      (∀ x ∈ l, x ∈ s.types) →
      (∀ u ∈ acc, ExpandedFrom s types u) →
      ∀ u ∈ l.foldl (expandTypesStep s types) acc, ExpandedFrom s types u := by
  intro l
  induction l with
  | nil => intro acc _ hacc u hu; exact hacc u hu
  | cons x l ih =>
    intro acc hl hacc u hu
    rw [List.foldl_cons] at hu
    have hxs : x ∈ s.types := hl x (by simp)
    have hltail : ∀ y ∈ l, y ∈ s.types := fun y hy => hl y (List.mem_cons_of_mem _ hy)
    refine ih _ hltail ?_ u hu
    intro v hv
    rw [expandTypesStep] at hv
    by_cases hm : typeNameInTypes x.GetName types = true
    · rw [if_pos hm] at hv
      cases hex : ExpandType (some s) (some x) with
      | error e =>
        simp only [hex] at hv
        rcases List.mem_append.mp hv with h2 | h2
        · exact hacc v h2
        · have hvx : v = x := by simpa using h2
          exact Or.inl ⟨hvx ▸ hxs, hvx ▸ hm⟩
      | ok fieldTypes =>
        simp only [hex] at hv
        rcases mem_dedup_foldl fieldTypes _ v hv with h2 | h2
        · rcases List.mem_append.mp h2 with h3 | h3
          · exact hacc v h3
          · have hvx : v = x := by simpa using h3
            exact Or.inl ⟨hvx ▸ hxs, hvx ▸ hm⟩
        · exact Or.inr ⟨x, hxs, hm, fieldTypes, hex, h2⟩
    · rw [if_neg hm] at hv
      exact hacc v hv

/-- Claim C1 (amended): the expansion is seeded by the root-matched types
and extended only with the one-hop `ExpandType` expansions of
root-matched types, and a hop follows a field or input-field only when
its TypeRef has a non-nil `OfType` wrapper (a bare leaf reference is not
followed).  Concretely, with wrapped references `widget: Widget!` and
`part: Part!`, expanding root `Query` yields exactly `[Query, Widget]` —
`Part`, two hops away, is not included. -/
theorem C1_single_hop :
    (ExpandTypes (some wrapSchema) [{ name := "Query".toList }] =
      Except.ok [queryWrapT, widgetWrapT]) ∧
    (∀ (s : Schema) (types : List TypeInfo) (out : List GType),
      ExpandTypes (some s) types = .ok out →
      ∀ u ∈ out, ExpandedFrom s types u) := by
  refine ⟨by decide, ?_⟩
  intro s types out h u hu
  have hout : s.types.foldl (expandTypesStep s types) [] = out := by
    simp only [ExpandTypes] at h
    exact Except.ok.inj h
  rw [← hout] at hu
  exact expandTypes_fold_sound s types s.types [] (fun x hx => hx) (by simp) u hu

/-- Witness for C1 (amended) at the wrapped schema: `Widget` is in the
output and is indeed a one-hop expansion of the root `Query`. -/
theorem C1_single_hop_witness :
    ExpandedFrom wrapSchema [{ name := "Query".toList }] widgetWrapT :=
  C1_single_hop.2 wrapSchema [{ name := "Query".toList }]
    [queryWrapT, widgetWrapT] (by decide) widgetWrapT (by decide)

end Tutone

namespace Tutone

/-! ## Claim C5 -/

def dupABField : Field :=
  { name := "fb".toList
  , type := TypeRef.wrap Kind.NON_NULL (TypeRef.leaf Kind.OBJECT "B".toList)
  , args := [] }

def dupAT : GType :=
  { name := "A".toList, kind := Kind.OBJECT, fields := [dupABField]
  , inputFields := [], possibleTypes := [] }

def dupBT : GType :=
  { name := "B".toList, kind := Kind.OBJECT, fields := []
  , inputFields := [], possibleTypes := [] }

def dupSchema : Schema := { types := [dupAT, dupBT] }

def dupRoots : List TypeInfo := [{ name := "A".toList }, { name := "B".toList }]

/-- Counterexample to claim C5: with roots `[A, B]` where `A` has the
wrapped field `fb: B!`, the scan appends `A`, then `B` as a one-hop
expansion, and then appends `B` again when the outer scan reaches it as a
root — the root append has no `hasType` check — so the output
`[A, B, B]` repeats the name `B`. -/
theorem C5_counterexample :
    ExpandTypes (some dupSchema) dupRoots = Except.ok [dupAT, dupBT, dupBT] ∧
    ¬ ([dupAT, dupBT, dupBT].map GType.name).Nodup := by
  decide

/-- The number of entries of a type list having a given canonical name. -/
def nameCount (ts : List GType) (n : GoStr) : Nat :=
  ts.countP (fun t => t.name = n)

theorem nameCount_append (A B : List GType) (n : GoStr) :
    nameCount (A ++ B) n = nameCount A n + nameCount B n := by
  simp [nameCount, List.countP_append]

theorem nameCount_singleton_ne (f : GType) (n : GoStr) (h : ¬ f.name = n) :
    nameCount [f] n = 0 := by
  simp [nameCount, List.countP_cons, h]

theorem nameCount_singleton_eq (f : GType) (n : GoStr) (h : f.name = n) :
    nameCount [f] n = 1 := by
  simp [nameCount, List.countP_cons, h]

/-- The deduplicating append fold never raises any name's multiplicity
above `max (existing count) 1`. -/
theorem dedup_fold_count_le (fs : List GType) :
    ∀ (acc : List GType) (n : GoStr),
      nameCount (fs.foldl (fun a f => if hasType f a then a else a ++ [f]) acc) n ≤
        max (nameCount acc n) 1 := by
  induction fs with
  | nil => intro acc n; exact le_max_left _ _
  | cons f fs ih =>
    intro acc n
    rw [List.foldl_cons]
    refine le_trans (ih _ n) ?_
    by_cases hc : hasType f acc = true
    · rw [if_pos hc]
    · rw [if_neg hc]
      by_cases hfn : f.name = n
      · have hcnt : nameCount acc n = 0 := by
          rw [nameCount, List.countP_eq_zero]
          intro tt htt
          simp only [decide_eq_true_eq]
          intro htn
          refine hc ?_
          simp only [hasType, List.any_eq_true, decide_eq_true_eq]
          exact ⟨tt, htt, by rw [hfn, htn]⟩
        rw [nameCount_append, hcnt, nameCount_singleton_eq f n hfn]
        simp
      · rw [nameCount_append, nameCount_singleton_ne f n hfn]
        simp

/-- Along the outer scan, a name can reach multiplicity two only through
the unchecked root append. -/
theorem expandTypes_fold_dup (s : Schema) (types : List TypeInfo) :
    ∀ (l acc : List GType),
      (∀ n, 1 < nameCount acc n →
        typeNameInTypes (formatGoName n) types = true) →
      ∀ n, 1 < nameCount (l.foldl (expandTypesStep s types) acc) n →
        typeNameInTypes (formatGoName n) types = true := by
  intro l
  induction l with
  | nil => intro acc hacc n h; exact hacc n h
  | cons x l ih =>
    intro acc hacc n h
    rw [List.foldl_cons] at h
    refine ih _ ?_ n h
    intro m hm
    rw [expandTypesStep] at hm
    by_cases hmt : typeNameInTypes x.GetName types = true
    · rw [if_pos hmt] at hm
      have happ : ∀ k, 1 < nameCount (acc ++ [x]) k →
          typeNameInTypes (formatGoName k) types = true := by
        intro k hk
        by_cases hxk : x.name = k
        · rw [← hxk]
          exact hmt
        · rw [nameCount_append, nameCount_singleton_ne x k hxk] at hk
          exact hacc k (by omega)
      cases hex : ExpandType (some s) (some x) with
      | error e =>
        simp only [hex] at hm
        exact happ m hm
      | ok fieldTypes =>
        simp only [hex] at hm
        have hle := dedup_fold_count_le fieldTypes (acc ++ [x]) m
        have h2 : 1 < nameCount (acc ++ [x]) m := by
          rcases max_cases (nameCount (acc ++ [x]) m) 1 with
            ⟨heq, _⟩ | ⟨heq, _⟩ <;> omega
        exact happ m h2
    · rw [if_neg hmt] at hm
      exact hacc m hm

/-- Claim C5 (amended): the `ExpandTypes` output can repeat a name, but
only for a root-matched name — the `hasType` deduplication guards the
one-hop expansions, while root matches are appended unchecked.  Hence any
name occurring more than once in the output belongs to a requested
root. -/
theorem C5_dup_only_root_names (s : Schema) (types : List TypeInfo)
    (out : List GType) (h : ExpandTypes (some s) types = .ok out)
    (n : GoStr) (hdup : 1 < nameCount out n) :
    typeNameInTypes (formatGoName n) types = true := by
  have hout : s.types.foldl (expandTypesStep s types) [] = out := by
    simp only [ExpandTypes] at h
    exact Except.ok.inj h
  rw [← hout] at hdup
  exact expandTypes_fold_dup s types s.types []
    (by intro k hk; simp [nameCount] at hk) n hdup

/-- Witness for C5 (amended) at the duplicate example: the repeated name
`B` is a root name. -/
theorem C5_dup_only_root_names_witness :
    typeNameInTypes (formatGoName ("B".toList)) dupRoots = true :=
  C5_dup_only_root_names dupSchema dupRoots [dupAT, dupBT, dupBT] (by decide)
    ("B".toList) (by decide)

/-! ## Claim C9 -/

/-- Whether an `Except` result is a success. -/
def exceptIsOk {e a : Type} : Except e a → Bool
  | .ok _ => true
  | .error _ => false

/-- Claim C9: `ExpandType` fails exactly when the schema or the type
argument is nil, and `ExpandTypes` fails exactly when the schema is nil;
per-type resolution failures inside are absorbed (each miss merely skips
that reference), never surfaced as errors. -/
theorem C9_error_iff_nil_args (s? : Option Schema) (t? : Option GType)
    (types : List TypeInfo) :
    (exceptIsOk (ExpandType s? t?) = true ↔
      s?.isSome = true ∧ t?.isSome = true) ∧
    (exceptIsOk (ExpandTypes s? types) = true ↔ s?.isSome = true) := by
  cases s? <;> cases t? <;>
    simp [ExpandType, ExpandTypes, exceptIsOk, Option.isSome]

end Tutone

namespace Tutone

/-! ## Claim C7: the stateful embedding

`LookupTypeByName` returns a shared pointer into the registry and
`GetQueryStringFields` begins with `sort.SliceStable(t.Fields, ...)` on
its receiver, so the sort is persisted in the registry record.  Here the
state is the registry's type list, a type pointer is an index into it,
and entering a call first stores the receiver's field-sorted record back
at its index.  The loops then walk the sorted snapshot; since the only
mutation anywhere is this idempotent by-name sort, the snapshot agrees
with the live record throughout. -/

/-- Pointer lookup: the index of the first type with the given name. -/
def lookupIdx (ts : List GType) (name : GoStr) : Option Nat :=
  ts.findIdx? (fun t => t.name = name)

/-- The receiver after `sort.SliceStable(t.Fields, ...)`. -/
def sortTypeFields (t : GType) : GType :=
  { t with fields := sortFieldsByName t.fields }

/-- The field loop of the stateful embedding, threading the registry
state through the recursive synthesis calls. -/
def fieldsLoopMut (recur : Nat → List GType → Option (GoStr × List GType))
    (depth maxDepth : Int) (isMutation : Bool) (excludeFields : List GoStr) :
    List Field → List GoStr → List GoStr → List GType →
    Option (List GoStr × List GoStr × List GType)
  | [], lines, parents, ts => some (lines, parents, ts)
  | field :: rest, lines, parents, ts =>
    if !isMutation && field.HasRequiredArg then
      fieldsLoopMut recur depth maxDepth isMutation excludeFields rest lines parents ts
    else if stringInStrings field.name excludeFields then
      fieldsLoopMut recur depth maxDepth isMutation excludeFields rest lines parents ts
    else if field.type.leafKind = Kind.OBJECT ∨ field.type.leafKind = Kind.INTERFACE then
      if depth > maxDepth then
        fieldsLoopMut recur depth maxDepth isMutation excludeFields rest lines parents ts
      else
        match lookupIdx ts field.type.GetTypeName with
        | none =>
          fieldsLoopMut recur depth maxDepth isMutation excludeFields rest lines parents ts
        | some j =>
          match recur j ts with
          | none => none
          | some (subTContent, ts1) =>
            if subTContent = [] ∨ (ssplit subTContent).length < 1 then
              fieldsLoopMut recur depth maxDepth isMutation excludeFields rest lines parents ts1
            else
              fieldsLoopMut recur depth maxDepth isMutation excludeFields rest
                (lines ++ (field.name ++ openSuffix) ::
                  ((if field.type.leafKind = Kind.INTERFACE then [tabTypename] else []) ++
                    (ssplit subTContent).map (fun b => '\t' :: b) ++ [closeLine]))
                parents ts1
    else
      fieldsLoopMut recur depth maxDepth isMutation excludeFields rest
        (lines ++ [field.name]) (parents ++ [field.name]) ts

/-- The possible-types loop of the stateful embedding. -/
def possLoopMut (recur : Nat → List GType → Option (GoStr × List GType)) :
    List TypeRef → List GoStr → List GoStr → List GType →
    Option (List GoStr × List GType)
  | [], lines, _, ts => some (lines, ts)
  | pt :: rest, lines, parents, ts =>
    match lookupIdx ts pt.refName with
    | none => none
    | some j =>
      match recur j ts with
      | none => none
      | some (possibleTContent, ts1) =>
        possLoopMut recur rest
          (lines ++ fragOpenLine pt.refName :: tabTypename ::
            (((ssplit possibleTContent).filter
                  (fun b => !stringInStrings b parents)).map
                (fun b => '\t' :: b) ++ [closeLine]))
          parents ts1

/-- The stateful `GetQueryStringFields`: called on the type at index `i`
of the registry; returns the selection text together with the registry
state after the call. -/
def GetQueryStringFieldsMut :
    Nat → Nat → List GType → Int → Int → Bool → List GoStr →
    Option (GoStr × List GType)
  | 0, _, _, _, _, _, _ => none
  | Nat.succ fuel, i, ts, depth0, maxDepth, isMutation, excludeFields =>
    match ts[i]? with
    | none => none
    | some t0 =>
      match fieldsLoopMut
          (fun j ts1 => GetQueryStringFieldsMut fuel j ts1 (depth0 + 1) maxDepth
            isMutation excludeFields)
          (depth0 + 1) maxDepth isMutation excludeFields
          (sortFieldsByName t0.fields) [] []
          (ts.set i (sortTypeFields t0)) with
      | none => none
      | some (lines, parents, ts1) =>
        match possLoopMut
            (fun j ts2 => GetQueryStringFieldsMut fuel j ts2 (depth0 + 1) maxDepth
              isMutation excludeFields)
            t0.possibleTypes lines parents ts1 with
        | none => none
        | some (lines2, ts2) => some (sjoin lines2, ts2)

/-- One persisted mutation: some type record is replaced by its
field-sorted version. -/
def SortStep (ts ts' : List GType) : Prop :=
  ∃ i t0, ts[i]? = some t0 ∧ ts' = ts.set i (sortTypeFields t0)

/-- A type `T` whose fields are listed out of order. -/
def mutFieldB : Field :=
  { name := "b".toList, type := TypeRef.leaf Kind.SCALAR "Int".toList, args := [] }

def mutFieldA : Field :=
  { name := "a".toList, type := TypeRef.leaf Kind.SCALAR "Int".toList, args := [] }

def mutT : GType :=
  { name := "T".toList, kind := Kind.OBJECT, fields := [mutFieldB, mutFieldA]
  , inputFields := [], possibleTypes := [] }

def mutTSorted : GType :=
  { name := "T".toList, kind := Kind.OBJECT, fields := [mutFieldA, mutFieldB]
  , inputFields := [], possibleTypes := [] }

/-- Counterexample to claim C7: calling the synthesizer on the registry
`[T]` where `T`'s fields are `[b, a]` returns with the registry changed —
`T`'s record now lists its fields as `[a, b]`.  The field-ordering
normalization is persisted in the shared record, not local to the
call. -/
theorem C7_counterexample :
    GetQueryStringFieldsMut 2 0 [mutT] 0 2 false [] =
      some ("a\nb".toList, [mutTSorted]) ∧
    [mutTSorted] ≠ [mutT] := by
  decide

theorem map_name_set_sort :
    ∀ (ts : List GType) (i : Nat) (t0 : GType),
      ts[i]? = some t0 →
      (ts.set i (sortTypeFields t0)).map GType.name = ts.map GType.name := by
  intro ts
  induction ts with
  | nil => intro i t0 h; cases i <;> simp at h
  | cons x ts ih =>
    intro i t0 h
    cases i with
    | zero =>
      have hx : x = t0 := by simpa using h
      subst hx
      simp [List.set, sortTypeFields]
    | succ i =>
      have h' : ts[i]? = some t0 := by simpa using h
      simp [List.set, ih i t0 h']

theorem sortStep_names {ts ts' : List GType} (h : SortStep ts ts') :
    ts'.map GType.name = ts.map GType.name := by
  rcases h with ⟨i, t0, hi, rfl⟩
  exact map_name_set_sort ts i t0 hi

theorem sortSteps_names {ts ts' : List GType}
    (h : Relation.ReflTransGen SortStep ts ts') :
    ts'.map GType.name = ts.map GType.name := by
  induction h with
  | refl => rfl
  | tail hab hbc ih => rw [sortStep_names hbc, ih]

theorem fieldsLoopMut_sortSteps
    (recur : Nat → List GType → Option (GoStr × List GType))
    (depth maxD : Int) (mu : Bool) (ex : List GoStr)
    (hrec : ∀ j ts res, recur j ts = some res →
      Relation.ReflTransGen SortStep ts res.2) :
    ∀ (fields : List Field) (lines parents : List GoStr) (ts : List GType)
      (res : List GoStr × List GoStr × List GType),
      fieldsLoopMut recur depth maxD mu ex fields lines parents ts = some res →
      Relation.ReflTransGen SortStep ts res.2.2 := by
  intro fields
  induction fields with
  | nil =>
    intro lines parents ts res h
    rw [fieldsLoopMut] at h
    cases Option.some.inj h
    exact Relation.ReflTransGen.refl
  | cons field rest ih =>
    intro lines parents ts res h
    rw [fieldsLoopMut] at h
    by_cases h1 : (!mu && field.HasRequiredArg) = true
    · rw [if_pos h1] at h
      exact ih _ _ _ _ h
    · rw [if_neg h1] at h
      by_cases h2 : stringInStrings field.name ex = true
      · rw [if_pos h2] at h
        exact ih _ _ _ _ h
      · rw [if_neg h2] at h
        by_cases h3 : field.type.leafKind = Kind.OBJECT ∨
            field.type.leafKind = Kind.INTERFACE
        · rw [if_pos h3] at h
          by_cases h4 : depth > maxD
          · rw [if_pos h4] at h
            exact ih _ _ _ _ h
          · rw [if_neg h4] at h
            cases hlk : lookupIdx ts field.type.GetTypeName with
            | none =>
              simp only [hlk] at h
              exact ih _ _ _ _ h
            | some j =>
              simp only [hlk] at h
              cases hrc : recur j ts with
              | none => simp only [hrc] at h; cases h
              | some pr =>
                obtain ⟨content, ts1⟩ := pr
                simp only [hrc] at h
                have hstep := hrec j ts (content, ts1) hrc
                by_cases h5 : content = [] ∨ (ssplit content).length < 1
                · rw [if_pos h5] at h
                  exact hstep.trans (ih _ _ _ _ h)
                · rw [if_neg h5] at h
                  exact hstep.trans (ih _ _ _ _ h)
        · rw [if_neg h3] at h
          exact ih _ _ _ _ h

theorem possLoopMut_sortSteps
    (recur : Nat → List GType → Option (GoStr × List GType))
    (hrec : ∀ j ts res, recur j ts = some res →
      Relation.ReflTransGen SortStep ts res.2) :
    ∀ (pts : List TypeRef) (lines parents : List GoStr) (ts : List GType)
      (res : List GoStr × List GType),
      possLoopMut recur pts lines parents ts = some res →
      Relation.ReflTransGen SortStep ts res.2 := by
  intro pts
  induction pts with
  | nil =>
    intro lines parents ts res h
    rw [possLoopMut] at h
    cases Option.some.inj h
    exact Relation.ReflTransGen.refl
  | cons pt rest ih =>
    intro lines parents ts res h
    rw [possLoopMut] at h
    cases hlk : lookupIdx ts pt.refName with
    | none => simp only [hlk] at h; cases h
    | some j =>
      simp only [hlk] at h
      cases hrc : recur j ts with
      | none => simp only [hrc] at h; cases h
      | some pr =>
        obtain ⟨content, ts1⟩ := pr
        simp only [hrc] at h
        exact (hrec j ts (content, ts1) hrc).trans (ih _ _ _ _ h)

theorem gqsfMut_sortSteps :
    ∀ (fuel i : Nat) (ts : List GType) (d maxD : Int) (mu : Bool)
      (ex : List GoStr) (res : GoStr × List GType),
      GetQueryStringFieldsMut fuel i ts d maxD mu ex = some res →
      Relation.ReflTransGen SortStep ts res.2 := by
  intro fuel
  induction fuel with
  | zero =>
    intro i ts d maxD mu ex res h
    rw [GetQueryStringFieldsMut] at h
    cases h
  | succ fuel ihf =>
    intro i ts d maxD mu ex res h
    rw [GetQueryStringFieldsMut] at h
    cases hti : ts[i]? with
    | none => simp only [hti] at h; cases h
    | some t0 =>
      simp only [hti] at h
      have hstep : SortStep ts (ts.set i (sortTypeFields t0)) := ⟨i, t0, hti, rfl⟩
      cases hfl : fieldsLoopMut
          (fun j ts1 => GetQueryStringFieldsMut fuel j ts1 (d + 1) maxD mu ex)
          (d + 1) maxD mu ex (sortFieldsByName t0.fields) [] []
          (ts.set i (sortTypeFields t0)) with
      | none => simp only [hfl] at h; cases h
      | some p =>
        obtain ⟨lines, parents, ts1⟩ := p
        simp only [hfl] at h
        have h1 := fieldsLoopMut_sortSteps _ (d + 1) maxD mu ex
          (fun j ts2 res2 hr => ihf j ts2 (d + 1) maxD mu ex res2 hr)
          (sortFieldsByName t0.fields) [] [] _ _ hfl
        cases hpl : possLoopMut
            (fun j ts2 => GetQueryStringFieldsMut fuel j ts2 (d + 1) maxD mu ex)
            t0.possibleTypes lines parents ts1 with
        | none => simp only [hpl] at h; cases h
        | some q =>
          obtain ⟨lines2, ts2⟩ := q
          simp only [hpl] at h
          have h2 := possLoopMut_sortSteps _
            (fun j ts3 res3 hr => ihf j ts3 (d + 1) maxD mu ex res3 hr)
            t0.possibleTypes lines parents _ _ hpl
          cases Option.some.inj h
          exact ((Relation.ReflTransGen.single hstep).trans h1).trans h2

/-- Claim C7 (amended): a call to the synthesizer does change the shared
registry, but only by persisting field-ordering normalization: the final
registry is reachable from the initial one by a sequence of in-place
field sorts of visited records, and in particular the type names (and the
list's length and order) are unchanged. -/
theorem C7_sort_persisted (fuel i : Nat) (ts : List GType) (d maxD : Int)
    (mu : Bool) (ex : List GoStr) (str : GoStr) (ts' : List GType)
    (h : GetQueryStringFieldsMut fuel i ts d maxD mu ex = some (str, ts')) :
    Relation.ReflTransGen SortStep ts ts' ∧
      ts'.map GType.name = ts.map GType.name := by
  have h1 := gqsfMut_sortSteps fuel i ts d maxD mu ex (str, ts') h
  exact ⟨h1, sortSteps_names h1⟩

/-- Witness for C7 (amended) at the concrete mutated registry. -/
theorem C7_sort_persisted_witness :
    Relation.ReflTransGen SortStep [mutT] [mutTSorted] ∧
      [mutTSorted].map GType.name = [mutT].map GType.name :=
  C7_sort_persisted 2 0 [mutT] 0 2 false [] ("a\nb".toList) [mutTSorted]
    (by decide)

end Tutone
